import Mathlib

/-!
Verification development for the xdg-chooser association-resolution core.

The Rust sources under src/config/mimeapps.rs, src/desktop/entry.rs,
src/desktop/discovery.rs and src/desktop/categories.rs are shallowly
embedded below.  Strings are modeled as lists of Unicode characters
(`Str := List Char`); Rust byte-oriented operations used by the code
(ordering, length) agree with the character-level model on the inputs the
claims are about, which is noted at each definition.  `HashMap<String, V>`
is modeled as an association list queried only through `hmGet`; the map is
identified with its lookup function (Rust's `HashMap` has no observable
order, and the code sorts explicitly wherever order reaches the output).
Filesystem and environment access is outside the embedding: `save` returns
the exact byte content the code writes, `parse_file` consumes the content
of a file, and registry construction consumes the list of parsed
descriptors in scan order.
-/

namespace XdgChooser

/-- Characters of a Rust `String`, in order. -/
abbrev Str := List Char

/-- Model of Rust `str::split(c)`: splits at every occurrence of `c`,
keeping empty segments, always returning at least one segment. -/
def splitOnChar (c : Char) : Str → List Str
  | [] => [[]]
  | x :: xs =>
    if x = c then
      [] :: splitOnChar c xs
    else
      match splitOnChar c xs with
      | [] => [[x]]
      | p :: ps => (x :: p) :: ps

/-- Model of Rust `str::split_once(c)`: splits at the first occurrence of
`c`, or `none` when `c` does not occur. -/
def splitOnceChar (c : Char) : Str → Option (Str × Str)
  | [] => none
  | x :: xs =>
    if x = c then some ([], xs)
    else (splitOnceChar c xs).map (fun p => (x :: p.1, p.2))

/-- The Unicode White_Space code points, the class stripped by Rust
`str::trim` (`char::is_whitespace`): U+0009..U+000D, U+0020, U+0085,
U+00A0, U+1680, U+2000..U+200A, U+2028, U+2029, U+202F, U+205F,
U+3000. -/
def rustWhitespaceChars : List Char :=
  [ '\t', '\n', '\x0B', '\x0C', '\r', ' ', '\x85', '\xA0', '\u1680',
    '\u2000', '\u2001', '\u2002', '\u2003', '\u2004', '\u2005', '\u2006',
    '\u2007', '\u2008', '\u2009', '\u200A', '\u2028', '\u2029', '\u202F',
    '\u205F', '\u3000' ]

/-- Model of Rust `char::is_whitespace`: membership in the Unicode
White_Space class. -/
def isRustWhitespace (c : Char) : Bool :=
  decide (c ∈ rustWhitespaceChars)

/-- Model of Rust `str::trim`: removes leading and trailing Unicode
whitespace. -/
def trim (s : Str) : Str :=
  (((s.dropWhile isRustWhitespace).reverse).dropWhile isRustWhitespace).reverse

/-- Model of Rust `Vec<String>::join(sep)` for a one-character separator. -/
def joinSep (c : Char) : List Str → Str
  | [] => []
  | [x] => x
  | x :: y :: ys => x ++ c :: joinSep c (y :: ys)

/-- One line as produced by Rust `BufRead::lines`: a trailing carriage
return is stripped from the line. -/
def stripCR (l : Str) : Str :=
  if l.getLast? = some '\r' then l.dropLast else l

/-- Model of Rust `BufRead::lines` applied to a whole file content:
split on newline; a trailing newline produces no final empty line;
each line loses a trailing carriage return. -/
def bufLines (s : Str) : List Str :=
  let parts := splitOnChar '\n' s
  let parts := if parts.getLast? = some [] then parts.dropLast else parts
  parts.map stripCR

/-- Model of `HashMap::get` on the association-list representation
(first binding wins; well-formed maps have distinct keys). -/
def hmGet {α : Type} : List (Str × α) → Str → Option α
  | [], _ => none
  | p :: ps, k => if p.1 = k then some p.2 else hmGet ps k

/-- Lookup with a default, modeling `map.get(k)` followed by
`unwrap_or_default`-style uses and `entry(k).or_default()` reads. -/
def hmGetD {α : Type} (m : List (Str × α)) (k : Str) (d : α) : α :=
  (hmGet m k).getD d

/-- Model of `HashMap::insert` (and of writing through
`entry(k).or_default()`): the binding for `k` becomes `v`.  The physical
position of the binding is irrelevant because maps are only observed via
`hmGet` or after explicit sorting. -/
def hmInsert {α : Type} (m : List (Str × α)) (k : Str) (v : α) : List (Str × α) :=
  (k, v) :: m.filter (fun p => decide (p.1 ≠ k))

/-- Valid characters of a MIME type part, from
`MimeAppsConfig::validate_mime_type` (alphanumeric, `-`, `.`, `+`). -/
def isMimeChar (c : Char) : Bool :=
  c.isAlphanum || c = '-' || c = '.' || c = '+'

/-- The value-splitting step shared by `MimeAppsConfig::parse_file` and
`AppEntry::parse` for `;`-separated list values: split on `;`, drop empty
pieces, trim each piece (in the source the emptiness filter runs before
the trim, which is preserved here). -/
def splitSemicolonList (value : Str) : List Str :=
  ((splitOnChar ';' value).filter (fun s => !s.isEmpty)).map trim

/-- `MimeAppsConfig` from src/config/mimeapps.rs (lines 10-20): the three
association mappings plus the write path.  The path is carried verbatim;
no claim depends on it. -/
structure MimeAppsConfig where
  default_apps : List (Str × List Str) := []
  added_associations : List (Str × List Str) := []
  removed_associations : List (Str × List Str) := []
  path : Str := []
deriving DecidableEq

/-- `ParsedMimeApps` from src/config/mimeapps.rs (lines 23-28): the parse
result of a single mimeapps.list file. -/
structure ParsedMimeApps where
  default_apps : List (Str × List Str) := []
  added_associations : List (Str × List Str) := []
  removed_associations : List (Str × List Str) := []
deriving DecidableEq

namespace MimeAppsConfig

/-- `MimeAppsConfig::validate_mime_type` (lines 219-256).  The error
payloads stand in for the formatted Rust messages; every claim observes
only success versus failure. -/
def validate_mime_type (mime : Str) : Except String Unit :=
  if '/' ∈ mime then
    match splitOnChar '/' mime with
    | [type_part, subtype] =>
      if type_part.isEmpty then .error "type cannot be empty"
      else if subtype.isEmpty then .error "subtype cannot be empty"
      else if type_part.all isMimeChar && subtype.all isMimeChar then .ok ()
      else .error "contains invalid characters"
    | _ => .error "must have exactly one slash"
  else .error "must be type slash subtype"

/-- `MimeAppsConfig::validate_app_id` (lines 259-273).  Rust checks the
byte length; with the mandatory all-ASCII `.desktop` suffix the byte
length is at most 8 exactly when the character length is, so the
character-level check is equivalent. -/
def validate_app_id (app_id : Str) : Except String Unit :=
  if ¬ (".desktop".toList.isSuffixOf app_id) then .error "must end with the desktop suffix"
  else if app_id.length ≤ 8 then .error "name cannot be empty"
  else .ok ()

/-- `MimeAppsConfig::get_default` (lines 276-281). -/
def get_default (c : MimeAppsConfig) (mime : Str) : Option Str :=
  (hmGet c.default_apps mime).bind (fun apps => apps.head?)

/-- `MimeAppsConfig::set_default` (lines 284-305).  The Rust method
mutates `&mut self` and returns `Result<()>`; the embedding returns the
result together with the post-state.  Both `bail!` sites run before any
mutation, so the error cases return the receiver unchanged. -/
def set_default (c : MimeAppsConfig) (mime app_id : Str) :
    Except String Unit × MimeAppsConfig :=
  match validate_mime_type mime with
  | .error e => (.error e, c)
  | .ok () =>
    match validate_app_id app_id with
    | .error e => (.error e, c)
    | .ok () =>
      let default_apps := hmInsert c.default_apps mime [app_id]
      let associations := hmGetD c.added_associations mime []
      let associations := associations.filter (fun a => decide (a ≠ app_id))
      let associations := app_id :: associations
      let added_associations := hmInsert c.added_associations mime associations
      (.ok (), { c with default_apps, added_associations })

/-- The union-with-deduplication loop of `MimeAppsConfig::merge_from`
(lines 141-145 and 151-155): push each incoming app unless already
present. -/
def mergeEntryLists (entry apps : List Str) : List Str :=
  apps.foldl (fun e app => if app ∈ e then e else e ++ [app]) entry

/-- `MimeAppsConfig::merge_from` (lines 132-157): defaults are replaced
per MIME type, added and removed associations are list-unioned per MIME
type.  Rust iterates the incoming `HashMap` in unspecified order; the
embedding folds over the association list, and the properties proved
below are insensitive to that order. -/
def merge_from (c : MimeAppsConfig) (other : ParsedMimeApps) : MimeAppsConfig :=
  let default_apps :=
    other.default_apps.foldl (fun m p => hmInsert m p.1 p.2) c.default_apps
  let added_associations :=
    other.added_associations.foldl
      (fun m p => hmInsert m p.1 (mergeEntryLists (hmGetD m p.1 []) p.2))
      c.added_associations
  let removed_associations :=
    other.removed_associations.foldl
      (fun m p => hmInsert m p.1 (mergeEntryLists (hmGetD m p.1 []) p.2))
      c.removed_associations
  { c with default_apps, added_associations, removed_associations }

/-- The literal section names recognized by `parse_file`. -/
def sectionDefault : Str := "Default Applications".toList

/-- Section name of added associations. -/
def sectionAdded : Str := "Added Associations".toList

/-- Section name of removed associations. -/
def sectionRemoved : Str := "Removed Associations".toList

/-- The per-line step of `MimeAppsConfig::parse_file` (lines 172-213):
state is the current section name and the accumulated parse result. -/
def parse_line (st : Str × ParsedMimeApps) (line : Str) : Str × ParsedMimeApps :=
  let trimmed := trim line
  if trimmed.isEmpty ∨ trimmed.head? = some '#' then st
  else if trimmed.head? = some '[' ∧ trimmed.getLast? = some ']' then
    ((trimmed.drop 1).dropLast, st.2)
  else
    match splitOnceChar '=' trimmed with
    | some (key, value) =>
      let mime := trim key
      let apps := splitSemicolonList value
      if apps.isEmpty then st
      else if st.1 = sectionDefault then
        (st.1, { st.2 with default_apps := hmInsert st.2.default_apps mime apps })
      else if st.1 = sectionAdded then
        (st.1, { st.2 with added_associations := hmInsert st.2.added_associations mime apps })
      else if st.1 = sectionRemoved then
        (st.1, { st.2 with removed_associations := hmInsert st.2.removed_associations mime apps })
      else st
    | none => st

/-- `MimeAppsConfig::parse_file` (lines 159-216) applied to the content of
an existing readable file (I/O failure is outside the embedding). -/
def parse_file (content : Str) : ParsedMimeApps :=
  ((bufLines content).foldl parse_line ([], {})).2

/-- The key ordering used by `save` via `sort_by_key(|(k, _)| k.as_str())`:
Rust compares UTF-8 bytes lexicographically, which coincides with
code-point order on characters. -/
def leStr : Str → Str → Bool
  | [], _ => true
  | _ :: _, [] => false
  | a :: as, b :: bs => if a = b then leStr as bs else decide (a < b)

/-- The sort of collected map entries in `save` (lines 357-358 etc.):
Rust's `sort_by_key` is a stable sort and the keys of a `HashMap` are
distinct, so its output is the unique `leStr`-sorted arrangement;
insertion sort computes exactly that. -/
def sortPairs (m : List (Str × List Str)) : List (Str × List Str) :=
  List.insertionSort (fun p q => leStr p.1 q.1 = true) m

/-- One `[Default Applications]` entry line of `save` (line 360),
without the trailing newline: `format!("{}={}", mime, apps.join(";"))`. -/
def lineNoSemi (p : Str × List Str) : Str :=
  p.1 ++ '=' :: joinSep ';' p.2

/-- One `[Added Associations]`/`[Removed Associations]` entry line of
`save` (lines 371, 382), without the trailing newline:
`format!("{}={};", mime, apps.join(";"))`. -/
def lineSemi (p : Str × List Str) : Str :=
  p.1 ++ '=' :: (joinSep ';' p.2 ++ [';'])

/-- Concatenates lines, terminating every line with a newline; `save`
emits its content in exactly this shape. -/
def joinLines (ls : List Str) : Str :=
  (ls.map (fun l => l ++ ['\n'])).flatten

/-- The lines `save` pushes, in order: per section (emitted only when the
map is non-empty) a header line, one entry line per key in sorted key
order, and — after the first two sections only — a blank separator
line. -/
def saveLines (c : MimeAppsConfig) : List Str :=
  (if c.default_apps.isEmpty then [] else
    "[Default Applications]".toList :: (sortPairs c.default_apps).map lineNoSemi ++ [[]]) ++
  (if c.added_associations.isEmpty then [] else
    "[Added Associations]".toList :: (sortPairs c.added_associations).map lineSemi ++ [[]]) ++
  (if c.removed_associations.isEmpty then [] else
    "[Removed Associations]".toList :: (sortPairs c.removed_associations).map lineSemi)

/-- `MimeAppsConfig::save` (lines 351-411): the exact content written to
the config file (the temp-file/rename dance and directory creation are
I/O outside the embedding). -/
def save (c : MimeAppsConfig) : Str :=
  joinLines (saveLines c)

end MimeAppsConfig

/-- `AppEntry` from src/desktop/entry.rs (lines 6-32).  `path` is carried
verbatim; no claim depends on it. -/
structure AppEntry where
  id : Str
  name : Str
  generic_name : Option Str := none
  comment : Option Str := none
  icon : Option Str := none
  exec : Option Str := none
  terminal : Bool := false
  no_display : Bool := false
  hidden : Bool := false
  mime_types : List Str := []
  categories : List Str := []
  path : Str := []
deriving DecidableEq

namespace AppEntry

/-- The bracketed key `key[locale]` built by `format!("{}[{}]", key, locale)`
inside `get_localized`. -/
def bracketKey (key locale : Str) : Str :=
  key ++ '[' :: (locale ++ [']'])

/-- `AppEntry::get_localized` (src/desktop/entry.rs lines 135-173), with
the `for` loop over the locale preferences rendered as recursion.  For
each locale in order: the exact bracketed key; if the locale has an `@`
modifier, the key with the modifier stripped, then (when the stripped
base has a `_` country part) the language-only key; otherwise, when the
locale has a `_` country part, the language-only key.  Falls back to the
unbracketed key after all locales fail. -/
def get_localized (values : List (Str × Str)) (key : Str) : List Str → Option Str
  | [] => hmGet values key
  | locale :: rest =>
    match hmGet values (bracketKey key locale) with
    | some value => some value
    | none =>
      match splitOnceChar '@' locale with
      | some (base_locale, _) =>
        match hmGet values (bracketKey key base_locale) with
        | some value => some value
        | none =>
          match splitOnceChar '_' base_locale with
          | some (lang, _) =>
            match hmGet values (bracketKey key lang) with
            | some value => some value
            | none => get_localized values key rest
          | none => get_localized values key rest
      | none =>
        match splitOnceChar '_' locale with
        | some (lang, _) =>
          match hmGet values (bracketKey key lang) with
          | some value => some value
          | none => get_localized values key rest
        | none => get_localized values key rest

end AppEntry

/-- `AppCategory` from src/desktop/categories.rs (lines 2-18). -/
inductive AppCategory where
  | WebBrowser
  | EmailClient
  | FileManager
  | TerminalEmulator
  | TextEditor
  | MusicPlayer
  | VideoPlayer
  | ImageViewer
  | DocumentViewer
  | ArchiveManager
  | Calculator
  | Calendar
  | WordProcessor
  | Spreadsheet
deriving DecidableEq

namespace AppCategory

/-- `AppCategory::primary_mime_types` (src/desktop/categories.rs lines
82-157). -/
def primary_mime_types : AppCategory → List Str
  | .WebBrowser =>
    [ "x-scheme-handler/http".toList, "x-scheme-handler/https".toList,
      "text/html".toList, "application/xhtml+xml".toList ]
  | .EmailClient =>
    [ "x-scheme-handler/mailto".toList, "application/x-extension-eml".toList,
      "message/rfc822".toList ]
  | .FileManager => [ "inode/directory".toList ]
  | .TerminalEmulator => []
  | .TextEditor => [ "text/plain".toList ]
  | .MusicPlayer =>
    [ "audio/mpeg".toList, "audio/mp3".toList, "audio/ogg".toList,
      "audio/flac".toList, "audio/x-wav".toList, "audio/x-vorbis+ogg".toList ]
  | .VideoPlayer =>
    [ "video/mp4".toList, "video/x-matroska".toList, "video/webm".toList,
      "video/mpeg".toList, "video/x-msvideo".toList, "video/quicktime".toList ]
  | .ImageViewer =>
    [ "image/png".toList, "image/jpeg".toList, "image/gif".toList,
      "image/webp".toList, "image/bmp".toList, "image/svg+xml".toList ]
  | .DocumentViewer =>
    [ "application/pdf".toList, "application/postscript".toList,
      "application/x-bzpdf".toList, "application/x-gzpdf".toList ]
  | .ArchiveManager =>
    [ "application/zip".toList, "application/x-tar".toList,
      "application/gzip".toList, "application/x-gzip".toList,
      "application/x-bzip2".toList, "application/x-xz".toList,
      "application/x-7z-compressed".toList, "application/vnd.rar".toList,
      "application/x-rar".toList ]
  | .Calculator => []
  | .Calendar => [ "text/calendar".toList, "application/x-extension-ics".toList ]
  | .WordProcessor =>
    [ "application/msword".toList,
      "application/vnd.openxmlformats-officedocument.wordprocessingml.document".toList,
      "application/vnd.oasis.opendocument.text".toList, "application/rtf".toList ]
  | .Spreadsheet =>
    [ "application/vnd.ms-excel".toList,
      "application/vnd.openxmlformats-officedocument.spreadsheetml.sheet".toList,
      "application/vnd.oasis.opendocument.spreadsheet".toList, "text/csv".toList ]

/-- `AppCategory::desktop_categories` (src/desktop/categories.rs lines
212-229). -/
def desktop_categories : AppCategory → List Str
  | .Calculator => [ "Calculator".toList ]
  | .Calendar => [ "Calendar".toList ]
  | .TerminalEmulator => [ "TerminalEmulator".toList ]
  | .WebBrowser => [ "WebBrowser".toList ]
  | .EmailClient => [ "Email".toList ]
  | .FileManager => [ "FileManager".toList ]
  | .TextEditor => [ "TextEditor".toList ]
  | .MusicPlayer => [ "Audio".toList, "Music".toList, "Player".toList ]
  | .VideoPlayer => [ "Video".toList, "AudioVideo".toList ]
  | .ImageViewer => [ "Viewer".toList, "Graphics".toList ]
  | .DocumentViewer => [ "Viewer".toList, "Office".toList ]
  | .ArchiveManager => [ "Archiving".toList, "Compression".toList ]
  | .WordProcessor => [ "WordProcessor".toList, "Office".toList ]
  | .Spreadsheet => [ "Spreadsheet".toList, "Office".toList ]

end AppCategory

/-- Model of Rust `str::to_lowercase` by per-character lowering; the two
agree on ASCII, and every lowercasing in the embedded code is applied to
ASCII category names or compared for ASCII-relevant ordering. -/
def toLowerStr (s : Str) : Str := s.map Char.toLower

/-- `AppRegistry` from src/desktop/discovery.rs (lines 10-17). -/
structure AppRegistry where
  apps : List (Str × AppEntry) := []
  by_mime : List (Str × List Str) := []
  by_category : List (Str × List Str) := []
deriving DecidableEq

namespace AppRegistry

/-- The registry before any descriptor is indexed. -/
def empty : AppRegistry := {}

/-- `AppRegistry::index_app` (lines 62-87): skip if the id is already
present (first-seen wins), otherwise append the id to the index bucket of
every declared MIME type and every lowercased category, then insert the
entry. -/
def index_app (r : AppRegistry) (app : AppEntry) : AppRegistry :=
  if (hmGet r.apps app.id).isSome then r
  else
    let by_mime := app.mime_types.foldl
      (fun m mime => hmInsert m mime (hmGetD m mime [] ++ [app.id])) r.by_mime
    let by_category := app.categories.foldl
      (fun m cat => hmInsert m (toLowerStr cat) (hmGetD m (toLowerStr cat) [] ++ [app.id]))
      r.by_category
    { apps := hmInsert r.apps app.id app, by_mime := by_mime, by_category := by_category }

/-- `AppRegistry::new` (lines 21-60) with the filesystem walk abstracted:
the registry built by indexing the successfully parsed descriptors in
scan order. -/
def build (entries : List AppEntry) : AppRegistry :=
  entries.foldl index_app empty

/-- The `seen`-set guard of `apps_for_mime` (lines 98-119): the `HashSet`
is modeled as the list of already-pushed ids. -/
def seenPush (st : List Str × List Str) (id : Str) : List Str × List Str :=
  if id ∈ st.1 then st else (id :: st.1, st.2 ++ [id])

/-- `AppRegistry::apps_for_mime` (lines 95-126): direct index hits first,
then hits for the `<main type>/*` pattern, de-duplicated via the seen
set, finally resolved against the entry table. -/
def apps_for_mime (r : AppRegistry) (mime : Str) : List AppEntry :=
  let st := (hmGetD r.by_mime mime []).foldl seenPush ([], [])
  let st :=
    match splitOnceChar '/' mime with
    | some (main_type, _) =>
      (hmGetD r.by_mime (main_type ++ "/*".toList) []).foldl seenPush st
    | none => st
  st.2.filterMap (fun id => hmGet r.apps id)

/-- `AppRegistry::apps_for_category` (lines 129-134). -/
def apps_for_category (r : AppRegistry) (category : Str) : List AppEntry :=
  (hmGetD r.by_category (toLowerStr category) []).filterMap (fun id => hmGet r.apps id)

/-- The `seen`-set guard of `apps_for_app_category` (lines 138-157),
keyed by `app.id`, accumulating the entries themselves. -/
def seenPushEntry (st : List Str × List AppEntry) (app : AppEntry) :
    List Str × List AppEntry :=
  if app.id ∈ st.1 then st else (app.id :: st.1, st.2 ++ [app])

/-- The name ordering of `apps_for_app_category`'s final
`sort_by(|a, b| a.name.to_lowercase().cmp(&b.name.to_lowercase()))`. -/
abbrev entryNameLe (a b : AppEntry) : Prop :=
  MimeAppsConfig.leStr (toLowerStr a.name) (toLowerStr b.name) = true

/-- The union phase of `AppRegistry::apps_for_app_category` (lines
138-157): MIME-type results in the order the category lists MIME types,
then category results in the order the category lists desktop
categories, de-duplicated by id at first occurrence. -/
def apps_for_app_category_union (r : AppRegistry) (category : AppCategory) :
    List AppEntry :=
  let st := category.primary_mime_types.foldl
    (fun st mime => (apps_for_mime r mime).foldl seenPushEntry st) ([], [])
  let st := category.desktop_categories.foldl
    (fun st cat => (apps_for_category r cat).foldl seenPushEntry st) st
  st.2

/-- `AppRegistry::apps_for_app_category` (lines 137-162): the union
above, sorted with Rust's stable `sort_by` under the case-insensitive
name ordering.  A stable sort's output is uniquely determined by the
ordering and the input order, so the stable insertion sort computes
exactly what Rust's stable driftsort produces. -/
def apps_for_app_category (r : AppRegistry) (category : AppCategory) :
    List AppEntry :=
  List.insertionSort entryNameLe (apps_for_app_category_union r category)

end AppRegistry

/-- First-occurrence de-duplication, the specification-side description
of the seen-set passes in discovery queries. -/
def dedupFirst (ids : List Str) : List Str :=
  (ids.foldl AppRegistry.seenPush ([], [])).2

/-- Strict lexicographic character order, specification-side companion of
`MimeAppsConfig.leStr`. -/
def ltStr : Str → Str → Bool
  | [], [] => false
  | [], _ :: _ => true
  | _ :: _, [] => false
  | a :: as, b :: bs => if a = b then ltStr as bs else decide (a < b)

/-- Hypothesis vocabulary for the round-trip theorem: an app id that
passes `validate_app_id` and contains none of the characters the
mimeapps.list line format reserves (`;` separates list members, newline
separates lines, and edge whitespace is trimmed away on parse). -/
abbrev goodId (id : Str) : Prop :=
  (MimeAppsConfig.validate_app_id id).isOk = true ∧
  ';' ∉ id ∧ '\n' ∉ id ∧
  (∀ ch ∈ id.head?.toList, isRustWhitespace ch = false) ∧
  (∀ ch ∈ id.getLast?.toList, isRustWhitespace ch = false)

/-- A map entry whose key passes MIME validation and whose app list is
non-empty with well-behaved ids. -/
abbrev goodPair (p : Str × List Str) : Prop :=
  (MimeAppsConfig.validate_mime_type p.1).isOk = true ∧ p.2 ≠ [] ∧ ∀ id ∈ p.2, goodId id

/-- A well-formed association mapping: distinct keys (as any `HashMap`
has) and well-behaved entries. -/
abbrev goodMap (m : List (Str × List Str)) : Prop :=
  (m.map Prod.fst).Nodup ∧ ∀ p ∈ m, goodPair p

/-- A store holding the single association `text/plain ↦ [a;b.desktop]`;
both key and id pass validation, yet the id collides with the `;` list
separator. -/
def configSemicolonId : MimeAppsConfig :=
  { default_apps := [ ("text/plain".toList, [ "a;b.desktop".toList ]) ] }

/-- A store with well-behaved keys and ids in all three mappings, used to
witness the amended round-trip theorem. -/
def configRoundtrip : MimeAppsConfig :=
  { default_apps := [ ("text/plain".toList, [ "firefox.desktop".toList ]) ],
    added_associations :=
      [ ("text/plain".toList,
          [ "firefox.desktop".toList, "org.gnome.TextEditor.desktop".toList ]) ],
    removed_associations := [ ("image/png".toList, [ "old.desktop".toList ]) ] }

/-- A parsed descriptor declaring the same MIME type twice, as produced
by `MimeType=text/plain;text/plain;`. -/
def entryDupMime : AppEntry :=
  { id := "a.desktop".toList, name := "A".toList,
    mime_types := [ "text/plain".toList, "text/plain".toList ] }

/-- A descriptor declaring both the `audio/*` wildcard and the exact
`video/mp4` type. -/
def entryBoth : AppEntry :=
  { id := "x.desktop".toList, name := "X".toList,
    mime_types := [ "audio/*".toList, "video/mp4".toList ] }

/-- A descriptor declaring only the `audio/*` wildcard. -/
def entryAudioWild : AppEntry :=
  { id := "w.desktop".toList, name := "W".toList,
    mime_types := [ "audio/*".toList ] }

/-- Calculator-category descriptor with id `b.desktop`; its display name
ties with `entryTieA`'s. -/
def entryTieB : AppEntry :=
  { id := "b.desktop".toList, name := "Same".toList,
    categories := [ "Calculator".toList ] }

/-- Calculator-category descriptor with id `a.desktop`, scanned after
`entryTieB`. -/
def entryTieA : AppEntry :=
  { id := "a.desktop".toList, name := "Same".toList,
    categories := [ "Calculator".toList ] }

/-- Boolean pairwise check: every element relates to every later one. -/
def pairwiseB {α : Type} (r : α → α → Bool) : List α → Bool
  | [] => true
  | a :: l => l.all (r a) && pairwiseB r l

/-- Modeled from the spec (claim C6's ordering clause): a result sequence
sorted by case-insensitive display name ascending with ties broken by id
ascending. -/
def specSortedByNameThenId (l : List AppEntry) : Bool :=
  pairwiseB (fun a b =>
    ltStr (toLowerStr a.name) (toLowerStr b.name) ||
      (toLowerStr a.name = toLowerStr b.name && MimeAppsConfig.leStr a.id b.id)) l

/-!
## Helper lemmas about the map model
-/

theorem hmGet_cons {α : Type} (p : Str × α) (ps : List (Str × α)) (k : Str) :
    hmGet (p :: ps) k = if p.1 = k then some p.2 else hmGet ps k := rfl

theorem hmGet_hmInsert_self {α : Type} (m : List (Str × α)) (k : Str) (v : α) :
    hmGet (hmInsert m k v) k = some v := by
  simp [hmGet, hmInsert]

theorem hmGet_filter_ne {α : Type} (m : List (Str × α)) {k k' : Str} (h : k' ≠ k) :
    hmGet (m.filter (fun p => decide (p.1 ≠ k))) k' = hmGet m k' := by
  induction m with
  | nil => rfl
  | cons p ps ih =>
    by_cases hp : p.1 = k
    · have e1 : List.filter (fun p => decide (p.1 ≠ k)) (p :: ps) =
          List.filter (fun p => decide (p.1 ≠ k)) ps := by
        rw [List.filter_cons, if_neg]
        simp [hp]
      have hne : ¬ p.1 = k' := fun hk => h ((hp.symm.trans hk).symm)
      rw [e1, ih, hmGet_cons, if_neg hne]
    · have e1 : List.filter (fun p => decide (p.1 ≠ k)) (p :: ps) =
          p :: List.filter (fun p => decide (p.1 ≠ k)) ps := by
        rw [List.filter_cons, if_pos]
        simp [hp]
      rw [e1, hmGet_cons, hmGet_cons, ih]

theorem hmGet_hmInsert_ne {α : Type} (m : List (Str × α)) {k k' : Str} (v : α)
    (h : k' ≠ k) : hmGet (hmInsert m k v) k' = hmGet m k' := by
  have hne : ¬ k = k' := fun hk => h hk.symm
  rw [hmInsert, hmGet_cons, if_neg hne, hmGet_filter_ne m h]

/-!
## Claim C7: concrete validation outcomes of set_default
-/

/-- C7: `set_default` fails on the MIME types `invalid`, `/subtype` and
`type/` and on the app ids `firefox`, the empty string and `.desktop`,
and succeeds for `text/plain`, `image/svg+xml` and `x-scheme-handler/http`
paired with `firefox.desktop` — on every store. -/
theorem set_default_validation_cases (c : MimeAppsConfig) :
    (c.set_default "invalid".toList "firefox.desktop".toList).1.isOk = false ∧
    (c.set_default "/subtype".toList "firefox.desktop".toList).1.isOk = false ∧
    (c.set_default "type/".toList "firefox.desktop".toList).1.isOk = false ∧
    (c.set_default "text/plain".toList "firefox".toList).1.isOk = false ∧
    (c.set_default "text/plain".toList "".toList).1.isOk = false ∧
    (c.set_default "text/plain".toList ".desktop".toList).1.isOk = false ∧
    (c.set_default "text/plain".toList "firefox.desktop".toList).1.isOk = true ∧
    (c.set_default "image/svg+xml".toList "firefox.desktop".toList).1.isOk = true ∧
    (c.set_default "x-scheme-handler/http".toList "firefox.desktop".toList).1.isOk = true :=
  ⟨rfl, rfl, rfl, rfl, rfl, rfl, rfl, rfl, rfl⟩

/-- Witness for C7 at a concrete store. -/
theorem set_default_validation_cases_witness :
    (MimeAppsConfig.set_default {} "invalid".toList "firefox.desktop".toList).1.isOk = false ∧
    (MimeAppsConfig.set_default {} "text/plain".toList "firefox.desktop".toList).1.isOk = true :=
  ⟨(set_default_validation_cases {}).1,
   (set_default_validation_cases {}).2.2.2.2.2.2.1⟩

/-!
## Claim C8: failed validation leaves the store untouched
-/

/-- C8: whenever MIME-type or app-id validation fails, `set_default`
reports an error and returns the store with all three mappings exactly as
they were (both `bail!` sites in the source run before any mutation). -/
theorem set_default_invalid_unchanged (c : MimeAppsConfig) (mime app_id : Str)
    (h : (MimeAppsConfig.validate_mime_type mime).isOk = false ∨
      (MimeAppsConfig.validate_app_id app_id).isOk = false) :
    (c.set_default mime app_id).1.isOk = false ∧ (c.set_default mime app_id).2 = c := by
  cases hm : MimeAppsConfig.validate_mime_type mime with
  | error e =>
    exact ⟨by simp [MimeAppsConfig.set_default, hm, Except.isOk, Except.toBool],
      by simp [MimeAppsConfig.set_default, hm]⟩
  | ok u =>
    cases u
    cases ha : MimeAppsConfig.validate_app_id app_id with
    | error e =>
      exact ⟨by simp [MimeAppsConfig.set_default, hm, ha, Except.isOk, Except.toBool],
        by simp [MimeAppsConfig.set_default, hm, ha]⟩
    | ok u =>
      cases u
      rcases h with h | h
      · rw [hm] at h
        exact absurd h (by simp [Except.isOk, Except.toBool])
      · rw [ha] at h
        exact absurd h (by simp [Except.isOk, Except.toBool])

/-- Witness for C8: an invalid MIME type on a non-trivial store. -/
theorem set_default_invalid_unchanged_witness :
    ((MimeAppsConfig.validate_mime_type "invalid".toList).isOk = false ∨
      (MimeAppsConfig.validate_app_id "firefox.desktop".toList).isOk = false) ∧
    (configSemicolonId.set_default "invalid".toList "firefox.desktop".toList).1.isOk = false ∧
    (configSemicolonId.set_default "invalid".toList "firefox.desktop".toList).2 =
      configSemicolonId :=
  have h : (MimeAppsConfig.validate_mime_type "invalid".toList).isOk = false ∨
      (MimeAppsConfig.validate_app_id "firefox.desktop".toList).isOk = false :=
    Or.inl (by decide)
  ⟨h, (set_default_invalid_unchanged configSemicolonId "invalid".toList
      "firefox.desktop".toList h).1,
    (set_default_invalid_unchanged configSemicolonId "invalid".toList
      "firefox.desktop".toList h).2⟩

/-!
## Claim C1: set_default establishes the default and heads the added list
-/

/-- C1: for every store and every valid `(mime, id)` pair, after
`set_default mime id` the call succeeds, `get_default mime` returns `id`,
`default_apps[mime]` is exactly `[id]`, and `added_associations[mime]`
starts with `id` and contains no further occurrence of `id`. -/
theorem set_default_then_get (c : MimeAppsConfig) (mime app_id : Str)
    (h1 : MimeAppsConfig.validate_mime_type mime = .ok ())
    (h2 : MimeAppsConfig.validate_app_id app_id = .ok ()) :
    (c.set_default mime app_id).1 = .ok () ∧
    (c.set_default mime app_id).2.get_default mime = some app_id ∧
    hmGet (c.set_default mime app_id).2.default_apps mime = some [app_id] ∧
    ∃ rest, hmGet (c.set_default mime app_id).2.added_associations mime =
      some (app_id :: rest) ∧ app_id ∉ rest := by
  simp only [MimeAppsConfig.set_default, h1, h2]
  refine ⟨by trivial, ?_, ?_, ?_⟩
  · simp [MimeAppsConfig.get_default, hmGet_hmInsert_self]
  · exact hmGet_hmInsert_self ..
  · refine ⟨(hmGetD c.added_associations mime []).filter (fun a => decide (a ≠ app_id)),
      hmGet_hmInsert_self .., ?_⟩
    simp [List.mem_filter]

/-- Witness for C1 at `text/plain` and `firefox.desktop` on the empty
store. -/
theorem set_default_then_get_witness :
    MimeAppsConfig.validate_mime_type "text/plain".toList = .ok () ∧
    MimeAppsConfig.validate_app_id "firefox.desktop".toList = .ok () ∧
    (MimeAppsConfig.set_default {} "text/plain".toList "firefox.desktop".toList).2.get_default
      "text/plain".toList = some "firefox.desktop".toList :=
  ⟨rfl, rfl,
    (set_default_then_get {} "text/plain".toList "firefox.desktop".toList rfl rfl).2.1⟩

/-!
## Claim C3: added/removed merges are order-independent as sets
-/

theorem mem_mergeEntryLists (apps : List Str) :
    ∀ (entry : List Str) (a : Str),
      a ∈ MimeAppsConfig.mergeEntryLists entry apps ↔ a ∈ entry ∨ a ∈ apps := by
  induction apps with
  | nil =>
    intro entry a
    simp [MimeAppsConfig.mergeEntryLists]
  | cons x xs ih =>
    intro entry a
    have h1 : MimeAppsConfig.mergeEntryLists entry (x :: xs) =
        MimeAppsConfig.mergeEntryLists (if x ∈ entry then entry else entry ++ [x]) xs := rfl
    rw [h1, ih]
    by_cases hx : x ∈ entry
    · simp only [if_pos hx, List.mem_cons]
      constructor
      · rintro (h | h)
        · exact Or.inl h
        · exact Or.inr (Or.inr h)
      · rintro (h | h | h)
        · exact Or.inl h
        · exact Or.inl (h ▸ hx)
        · exact Or.inr h
    · simp only [if_neg hx, List.mem_append, List.mem_singleton, List.mem_cons]
      tauto

theorem mem_merge_fold (other : List (Str × List Str)) :
    ∀ (m : List (Str × List Str)) (k a : Str),
      (a ∈ hmGetD
        (other.foldl
          (fun m p => hmInsert m p.1 (MimeAppsConfig.mergeEntryLists (hmGetD m p.1 []) p.2)) m)
        k []) ↔
      a ∈ hmGetD m k [] ∨ ∃ p ∈ other, p.1 = k ∧ a ∈ p.2 := by
  induction other with
  | nil =>
    intro m k a
    simp
  | cons q qs ih =>
    intro m k a
    have h1 : (q :: qs).foldl
        (fun m p => hmInsert m p.1 (MimeAppsConfig.mergeEntryLists (hmGetD m p.1 []) p.2)) m =
        qs.foldl
          (fun m p => hmInsert m p.1 (MimeAppsConfig.mergeEntryLists (hmGetD m p.1 []) p.2))
          (hmInsert m q.1 (MimeAppsConfig.mergeEntryLists (hmGetD m q.1 []) q.2)) := rfl
    rw [h1, ih]
    by_cases hk : q.1 = k
    · rw [hmGetD, hk, hmGet_hmInsert_self, Option.getD_some, mem_mergeEntryLists]
      constructor
      · rintro ((h | h) | h)
        · exact Or.inl h
        · exact Or.inr ⟨q, List.mem_cons_self q qs, hk, h⟩
        · rcases h with ⟨p, hp, hpk, hpa⟩
          exact Or.inr ⟨p, List.mem_cons_of_mem q hp, hpk, hpa⟩
      · rintro (h | ⟨p, hp, hpk, hpa⟩)
        · exact Or.inl (Or.inl h)
        · rcases List.mem_cons.mp hp with hq | hq
          · exact Or.inl (Or.inr (hq ▸ hpa))
          · exact Or.inr ⟨p, hq, hpk, hpa⟩
    · rw [hmGetD, hmGet_hmInsert_ne m _ (fun hk2 => hk hk2.symm)]
      constructor
      · rintro (h | h)
        · exact Or.inl h
        · rcases h with ⟨p, hp, hpk, hpa⟩
          exact Or.inr ⟨p, List.mem_cons_of_mem q hp, hpk, hpa⟩
      · rintro (h | ⟨p, hp, hpk, hpa⟩)
        · exact Or.inl h
        · rcases List.mem_cons.mp hp with hq | hq
          · exact absurd (hq ▸ hpk) hk
          · exact Or.inr ⟨p, hq, hpk, hpa⟩

/-- C3: merging parsed records A then B into an empty store gives, for
every MIME type, added- and removed-association lists whose membership is
exactly that obtained by merging B then A (order may differ, sets may
not). -/
theorem merge_from_added_removed_comm (A B : ParsedMimeApps) (mime app : Str) :
    ((app ∈ hmGetD ((MimeAppsConfig.merge_from
        (MimeAppsConfig.merge_from {} A) B)).added_associations mime []) ↔
      (app ∈ hmGetD ((MimeAppsConfig.merge_from
        (MimeAppsConfig.merge_from {} B) A)).added_associations mime [])) ∧
    ((app ∈ hmGetD ((MimeAppsConfig.merge_from
        (MimeAppsConfig.merge_from {} A) B)).removed_associations mime []) ↔
      (app ∈ hmGetD ((MimeAppsConfig.merge_from
        (MimeAppsConfig.merge_from {} B) A)).removed_associations mime [])) := by
  have hA1 : (MimeAppsConfig.merge_from {} A).added_associations =
      A.added_associations.foldl
        (fun m p => hmInsert m p.1 (MimeAppsConfig.mergeEntryLists (hmGetD m p.1 []) p.2)) [] := rfl
  have hA2 : (MimeAppsConfig.merge_from {} A).removed_associations =
      A.removed_associations.foldl
        (fun m p => hmInsert m p.1 (MimeAppsConfig.mergeEntryLists (hmGetD m p.1 []) p.2)) [] := rfl
  constructor
  · rw [show (MimeAppsConfig.merge_from (MimeAppsConfig.merge_from {} A) B).added_associations =
        B.added_associations.foldl
          (fun m p => hmInsert m p.1 (MimeAppsConfig.mergeEntryLists (hmGetD m p.1 []) p.2))
          (MimeAppsConfig.merge_from {} A).added_associations from rfl]
    rw [show (MimeAppsConfig.merge_from (MimeAppsConfig.merge_from {} B) A).added_associations =
        A.added_associations.foldl
          (fun m p => hmInsert m p.1 (MimeAppsConfig.mergeEntryLists (hmGetD m p.1 []) p.2))
          (MimeAppsConfig.merge_from {} B).added_associations from rfl]
    rw [mem_merge_fold, mem_merge_fold, hA1, mem_merge_fold,
      show (MimeAppsConfig.merge_from {} B).added_associations =
        B.added_associations.foldl
          (fun m p => hmInsert m p.1 (MimeAppsConfig.mergeEntryLists (hmGetD m p.1 []) p.2)) [] from rfl,
      mem_merge_fold]
    simp only [hmGetD, hmGet, Option.getD_none, List.not_mem_nil, false_or]
    exact or_comm
  · rw [show (MimeAppsConfig.merge_from (MimeAppsConfig.merge_from {} A) B).removed_associations =
        B.removed_associations.foldl
          (fun m p => hmInsert m p.1 (MimeAppsConfig.mergeEntryLists (hmGetD m p.1 []) p.2))
          (MimeAppsConfig.merge_from {} A).removed_associations from rfl]
    rw [show (MimeAppsConfig.merge_from (MimeAppsConfig.merge_from {} B) A).removed_associations =
        A.removed_associations.foldl
          (fun m p => hmInsert m p.1 (MimeAppsConfig.mergeEntryLists (hmGetD m p.1 []) p.2))
          (MimeAppsConfig.merge_from {} B).removed_associations from rfl]
    rw [mem_merge_fold, mem_merge_fold, hA2, mem_merge_fold,
      show (MimeAppsConfig.merge_from {} B).removed_associations =
        B.removed_associations.foldl
          (fun m p => hmInsert m p.1 (MimeAppsConfig.mergeEntryLists (hmGetD m p.1 []) p.2)) [] from rfl,
      mem_merge_fold]
    simp only [hmGetD, hmGet, Option.getD_none, List.not_mem_nil, false_or]
    exact or_comm

/-!
## Claim C4: locale fallback with a country-and-modifier preference
-/

/-- C4 counterexample: with keys `Name[sr@latin]` and `Name` and
preference list `["sr_RS@latin", "en"]`, `get_localized` returns the
unbracketed fallback `"Generic"`, not `"Назив"` as claimed: for a
`lang_COUNTRY@MODIFIER` locale the code tries `Name[sr_RS@latin]`,
`Name[sr_RS]` and `Name[sr]` but never `Name[sr@latin]`. -/
theorem get_localized_modifier_counterexample :
    AppEntry.get_localized
        [ ("Name[sr@latin]".toList, "Назив".toList), ("Name".toList, "Generic".toList) ]
        "Name".toList [ "sr_RS@latin".toList, "en".toList ] = some "Generic".toList ∧
    some "Generic".toList ≠ some "Назив".toList := by
  exact ⟨by decide, by decide⟩

/-- C4 amended: under preferences `["sr_RS@latin", "en"]` the descriptor
resolves to the unbracketed `"Generic"`; the bracketed value `"Назив"` is
returned when the preference list carries the locale `sr@latin` itself. -/
theorem get_localized_modifier_amended :
    AppEntry.get_localized
        [ ("Name[sr@latin]".toList, "Назив".toList), ("Name".toList, "Generic".toList) ]
        "Name".toList [ "sr_RS@latin".toList, "en".toList ] = some "Generic".toList ∧
    AppEntry.get_localized
        [ ("Name[sr@latin]".toList, "Назив".toList), ("Name".toList, "Generic".toList) ]
        "Name".toList [ "sr@latin".toList, "en".toList ] = some "Назив".toList := by
  exact ⟨by decide, by decide⟩

/-!
## Claim C5: duplicate MIME declarations and the by_mime index
-/

theorem hmGet_mem {α : Type} {m : List (Str × α)} {k : Str} {v : α}
    (h : hmGet m k = some v) : (k, v) ∈ m := by
  induction m with
  | nil => exact absurd h (by simp [hmGet])
  | cons p ps ih =>
    rw [hmGet_cons] at h
    obtain ⟨pk, pv⟩ := p
    dsimp only at h
    by_cases hp : pk = k
    · rw [if_pos hp] at h
      have hv : pv = v := Option.some_injective _ h
      subst hp
      subst hv
      exact List.mem_cons_self _ _
    · rw [if_neg hp] at h
      exact List.mem_cons_of_mem _ (ih h)

theorem mem_hmInsert {α : Type} {m : List (Str × α)} {k : Str} {v : α}
    {p : Str × α} : p ∈ hmInsert m k v ↔ p = (k, v) ∨ (p ∈ m ∧ p.1 ≠ k) := by
  simp [hmInsert, List.mem_filter]

theorem pushFold_nodup (id : Str) :
    ∀ (mimes : List Str) (m : List (Str × List Str)),
      mimes.Nodup →
      (∀ p ∈ m, p.2.Nodup) →
      (∀ p ∈ m, id ∈ p.2 → p.1 ∉ mimes) →
      ∀ p ∈ mimes.foldl (fun m mime => hmInsert m mime (hmGetD m mime [] ++ [id])) m,
        p.2.Nodup := by
  intro mimes
  induction mimes with
  | nil => exact fun m _ h2 _ p hp => h2 p hp
  | cons mime rest ih =>
    intro m hnd h2 h3 p hp
    have hbucket : (hmGetD m mime [] ++ [id]).Nodup := by
      cases hv : hmGet m mime with
      | none => simp [hmGetD, hv]
      | some v =>
        have hmem := hmGet_mem hv
        have hvnd := h2 _ hmem
        have hid : id ∉ v := fun hidv => h3 _ hmem hidv (List.mem_cons_self mime rest)
        rw [hmGetD, hv, Option.getD_some, List.nodup_append]
        exact ⟨hvnd, List.nodup_singleton id, by simpa using hid⟩
    refine ih (hmInsert m mime (hmGetD m mime [] ++ [id]))
      ((List.nodup_cons.mp hnd).2) ?_ ?_ p hp
    · intro q hq
      rcases mem_hmInsert.mp hq with hqe | ⟨hqm, _⟩
      · rw [hqe]
        exact hbucket
      · exact h2 q hqm
    · intro q hq hidq
      rcases mem_hmInsert.mp hq with hqe | ⟨hqm, _⟩
      · rw [hqe]
        exact (List.nodup_cons.mp hnd).1
      · exact fun hr => h3 q hqm hidq (List.mem_cons_of_mem mime hr)

theorem pushFold_mem (id : Str) :
    ∀ (mimes : List Str) (m : List (Str × List Str)) (p : Str × List Str),
      p ∈ mimes.foldl (fun m mime => hmInsert m mime (hmGetD m mime [] ++ [id])) m →
      ∀ i ∈ p.2, i = id ∨ ∃ q ∈ m, i ∈ q.2 := by
  intro mimes
  induction mimes with
  | nil => exact fun m p hp i hi => Or.inr ⟨p, hp, hi⟩
  | cons mime rest ih =>
    intro m p hp i hi
    rcases ih (hmInsert m mime (hmGetD m mime [] ++ [id])) p hp i hi with h | ⟨q, hq, hiq⟩
    · exact Or.inl h
    · rcases mem_hmInsert.mp hq with hqe | ⟨hqm, _⟩
      · have hbk : i ∈ hmGetD m mime [] ++ [id] := by
          rw [hqe] at hiq
          exact hiq
        rcases List.mem_append.mp hbk with hiv | hii
        · cases hv : hmGet m mime with
          | none => rw [hmGetD, hv] at hiv; simp at hiv
          | some v =>
            rw [hmGetD, hv, Option.getD_some] at hiv
            exact Or.inr ⟨(mime, v), hmGet_mem hv, hiv⟩
        · exact Or.inl (by simpa using hii)
      · exact Or.inr ⟨q, hqm, hiq⟩

theorem build_loop_nodup_inv (entries : List AppEntry) :
    ∀ r : AppRegistry, (∀ e ∈ entries, e.mime_types.Nodup) →
      (∀ p ∈ r.by_mime, p.2.Nodup) →
      (∀ p ∈ r.by_mime, ∀ i ∈ p.2, (hmGet r.apps i).isSome = true) →
      (∀ p ∈ (entries.foldl AppRegistry.index_app r).by_mime, p.2.Nodup) ∧
      (∀ p ∈ (entries.foldl AppRegistry.index_app r).by_mime, ∀ i ∈ p.2,
        (hmGet (entries.foldl AppRegistry.index_app r).apps i).isSome = true) := by
  induction entries with
  | nil => exact fun r _ h1 h2 => ⟨h1, h2⟩
  | cons e es ih =>
    intro r hmnd h1 h2
    by_cases hc : (hmGet r.apps e.id).isSome = true
    · have hre : r.index_app e = r := by
        rw [AppRegistry.index_app, if_pos hc]
      have := ih (r.index_app e) (fun e' he' => hmnd e' (List.mem_cons_of_mem e he'))
        (by rw [hre]; exact h1) (by rw [hre]; exact h2)
      exact this
    · have hby : (r.index_app e).by_mime = e.mime_types.foldl
          (fun m mime => hmInsert m mime (hmGetD m mime [] ++ [e.id])) r.by_mime := by
        rw [AppRegistry.index_app, if_neg hc]
      have happs : (r.index_app e).apps = hmInsert r.apps e.id e := by
        rw [AppRegistry.index_app, if_neg hc]
      have hnodup : ∀ p ∈ (r.index_app e).by_mime, p.2.Nodup := by
        rw [hby]
        exact pushFold_nodup e.id e.mime_types r.by_mime
          (hmnd e (List.mem_cons_self e es)) h1
          (fun p hp hid _ => by
            have := h2 p hp e.id hid
            rw [this] at hc
            exact hc rfl)
      have hsome : ∀ p ∈ (r.index_app e).by_mime, ∀ i ∈ p.2,
          (hmGet (r.index_app e).apps i).isSome = true := by
        intro p hp i hi
        rw [hby] at hp
        rcases pushFold_mem e.id e.mime_types r.by_mime p hp i hi with hie | ⟨q, hq, hiq⟩
        · rw [happs, hie, hmGet_hmInsert_self]
          rfl
        · have hold := h2 q hq i hiq
          have hne : i ≠ e.id := by
            intro hie
            rw [hie] at hold
            rw [hold] at hc
            exact hc rfl
          rw [happs, hmGet_hmInsert_ne _ _ hne]
          exact hold
      exact ih (r.index_app e) (fun e' he' => hmnd e' (List.mem_cons_of_mem e he'))
        hnodup hsome

/-- C5 counterexample: a parsed descriptor declaring `text/plain` twice
(exactly what `MimeType=text/plain;text/plain;` parses to) is indexed
twice in the `text/plain` bucket — `index_app` has no per-bucket
deduplication. -/
theorem by_mime_duplicate_counterexample :
    splitSemicolonList "text/plain;text/plain;".toList =
      [ "text/plain".toList, "text/plain".toList ] ∧
    hmGet (AppRegistry.build [entryDupMime]).by_mime "text/plain".toList =
      some [ "a.desktop".toList, "a.desktop".toList ] ∧
    ¬ ([ "a.desktop".toList, "a.desktop".toList ] : List Str).Nodup := by
  exact ⟨by decide, by decide, by decide⟩

/-- C5 amended: when every indexed descriptor's `mime_types` list is
itself duplicate-free, every `by_mime` bucket holds each app id at most
once (ids of later same-id descriptors are never indexed at all, so
cross-descriptor duplication cannot occur). -/
theorem by_mime_nodup_of_nodup_mimes (entries : List AppEntry)
    (h : ∀ e ∈ entries, e.mime_types.Nodup) :
    ∀ p ∈ (AppRegistry.build entries).by_mime, p.2.Nodup :=
  (build_loop_nodup_inv entries AppRegistry.empty h
    (by intro p hp; simp [AppRegistry.empty] at hp)
    (by intro p hp; simp [AppRegistry.empty] at hp)).1

/-- Witness for C5 amended at a two-type descriptor. -/
theorem by_mime_nodup_of_nodup_mimes_witness :
    (∀ e ∈ [entryBoth], e.mime_types.Nodup) ∧
    (∀ p ∈ (AppRegistry.build [entryBoth]).by_mime, p.2.Nodup) :=
  ⟨by decide, by_mime_nodup_of_nodup_mimes [entryBoth] (by decide)⟩

/-!
## Claim C6: the category query's ordering
-/

theorem leStr_total : ∀ x y : Str, MimeAppsConfig.leStr x y = true ∨
    MimeAppsConfig.leStr y x = true := by
  intro x
  induction x with
  | nil => exact fun y => Or.inl rfl
  | cons a as ih =>
    intro y
    cases y with
    | nil => exact Or.inr rfl
    | cons b bs =>
      by_cases hab : a = b
      · subst hab
        rcases ih bs with h | h
        · exact Or.inl (by simp [MimeAppsConfig.leStr, h])
        · exact Or.inr (by simp [MimeAppsConfig.leStr, h])
      · rcases lt_or_gt_of_ne hab with hlt | hgt
        · exact Or.inl (by simp [MimeAppsConfig.leStr, hab, hlt])
        · exact Or.inr (by simp [MimeAppsConfig.leStr, Ne.symm hab, hgt])

theorem leStr_trans : ∀ x y z : Str, MimeAppsConfig.leStr x y = true →
    MimeAppsConfig.leStr y z = true → MimeAppsConfig.leStr x z = true := by
  intro x
  induction x with
  | nil => exact fun y z _ _ => rfl
  | cons a as ih =>
    intro y z hxy hyz
    cases y with
    | nil => simp [MimeAppsConfig.leStr] at hxy
    | cons b bs =>
      cases z with
      | nil => simp [MimeAppsConfig.leStr] at hyz
      | cons c cs =>
        simp only [MimeAppsConfig.leStr] at hxy hyz ⊢
        by_cases hab : a = b
        · subst hab
          rw [if_pos rfl] at hxy
          by_cases hac : a = c
          · subst hac
            rw [if_pos rfl] at hyz ⊢
            exact ih bs cs hxy hyz
          · rw [if_neg hac] at hyz ⊢
            exact hyz
        · rw [if_neg hab] at hxy
          have hlt : a < b := of_decide_eq_true hxy
          by_cases hbc : b = c
          · subst hbc
            rw [if_neg hab]
            exact hxy
          · rw [if_neg hbc] at hyz
            have hlt2 : b < c := of_decide_eq_true hyz
            have hac : a < c := lt_trans hlt hlt2
            rw [if_neg (ne_of_lt hac)]
            exact decide_eq_true hac

theorem seenPushEntry_fold_inv (apps : List AppEntry) :
    ∀ st : List Str × List AppEntry,
      ((st.2.map AppEntry.id).Nodup ∧ ∀ e ∈ st.2, e.id ∈ st.1) →
      (((apps.foldl AppRegistry.seenPushEntry st).2.map AppEntry.id).Nodup ∧
        ∀ e ∈ (apps.foldl AppRegistry.seenPushEntry st).2,
          e.id ∈ (apps.foldl AppRegistry.seenPushEntry st).1) := by
  induction apps with
  | nil => exact fun st h => h
  | cons a rest ih =>
    intro st h
    have hstep : (((AppRegistry.seenPushEntry st a).2.map AppEntry.id).Nodup ∧
        ∀ e ∈ (AppRegistry.seenPushEntry st a).2,
          e.id ∈ (AppRegistry.seenPushEntry st a).1) := by
      rw [AppRegistry.seenPushEntry]
      by_cases ha : a.id ∈ st.1
      · rw [if_pos ha]
        exact h
      · rw [if_neg ha]
        constructor
        · rw [List.map_append, List.nodup_append]
          refine ⟨h.1, by simp, ?_⟩
          intro x hx hy
          simp only [List.map_cons, List.map_nil, List.mem_singleton] at hy
          rcases List.mem_map.mp hx with ⟨e, he, hex⟩
          apply ha
          rw [← hy, ← hex]
          exact h.2 e he
        · intro e he
          rcases List.mem_append.mp he with he | he
          · exact List.mem_cons_of_mem _ (h.2 e he)
          · rw [List.mem_singleton.mp he]
            exact List.mem_cons_self _ _
    exact ih (AppRegistry.seenPushEntry st a) hstep

theorem seenPushEntry_nested_inv {β : Type} (f : β → List AppEntry) (xs : List β) :
    ∀ st : List Str × List AppEntry,
      ((st.2.map AppEntry.id).Nodup ∧ ∀ e ∈ st.2, e.id ∈ st.1) →
      (((xs.foldl (fun st x => (f x).foldl AppRegistry.seenPushEntry st) st).2.map
          AppEntry.id).Nodup ∧
        ∀ e ∈ (xs.foldl (fun st x => (f x).foldl AppRegistry.seenPushEntry st) st).2,
          e.id ∈ (xs.foldl (fun st x => (f x).foldl AppRegistry.seenPushEntry st) st).1) := by
  induction xs with
  | nil => exact fun st h => h
  | cons x rest ih =>
    intro st h
    exact ih ((f x).foldl AppRegistry.seenPushEntry st) (seenPushEntry_fold_inv (f x) st h)

theorem apps_for_app_category_union_id_nodup (r : AppRegistry) (cat : AppCategory) :
    ((AppRegistry.apps_for_app_category_union r cat).map AppEntry.id).Nodup := by
  have base : ((([], []) : List Str × List AppEntry).2.map AppEntry.id).Nodup ∧
      ∀ e ∈ (([], []) : List Str × List AppEntry).2, e.id ∈ (([], []) : List Str × List AppEntry).1 := by
    simp
  exact (seenPushEntry_nested_inv (AppRegistry.apps_for_category r) cat.desktop_categories _
    (seenPushEntry_nested_inv (AppRegistry.apps_for_mime r) cat.primary_mime_types ([], []) base)).1

/-- C6 counterexample: two Calculator apps named `Same`, indexed with ids
`b.desktop` then `a.desktop`.  The category query returns them in
first-union order `[b, a]`: the final sort compares only lowercased names
and Rust's `sort_by` is stable, so equal names are never tie-broken by id
ascending as claimed. -/
theorem apps_for_app_category_tiebreak_counterexample :
    (AppRegistry.apps_for_app_category (AppRegistry.build [entryTieB, entryTieA])
        .Calculator).map AppEntry.id = [ "b.desktop".toList, "a.desktop".toList ] ∧
    specSortedByNameThenId (AppRegistry.apps_for_app_category
        (AppRegistry.build [entryTieB, entryTieA]) .Calculator) = false ∧
    entryTieB.name = entryTieA.name ∧
    ltStr entryTieA.id entryTieB.id = true := by
  exact ⟨by decide, by decide, by decide, by decide⟩

/-- C6 amended: the category-group query returns a permutation of the
de-duplicated union (MIME results first, then category results, each id
kept at its first occurrence, so the union's ids are duplicate-free),
sorted ascending by case-insensitive display name; elements whose
lowercased names tie keep their union order (stable sort) instead of
being re-ordered by id. -/
theorem apps_for_app_category_sorted_stable (r : AppRegistry) (cat : AppCategory) :
    List.Perm (AppRegistry.apps_for_app_category r cat)
      (AppRegistry.apps_for_app_category_union r cat) ∧
    List.Sorted AppRegistry.entryNameLe (AppRegistry.apps_for_app_category r cat) ∧
    (∀ a b : AppEntry,
      List.Sublist [a, b] (AppRegistry.apps_for_app_category_union r cat) →
      AppRegistry.entryNameLe a b →
      List.Sublist [a, b] (AppRegistry.apps_for_app_category r cat)) ∧
    ((AppRegistry.apps_for_app_category_union r cat).map AppEntry.id).Nodup ∧
    ((AppRegistry.apps_for_app_category r cat).map AppEntry.id).Nodup := by
  haveI : IsTotal AppEntry AppRegistry.entryNameLe := ⟨fun a b => leStr_total _ _⟩
  haveI : IsTrans AppEntry AppRegistry.entryNameLe := ⟨fun a b c => leStr_trans _ _ _⟩
  have hperm : List.Perm (AppRegistry.apps_for_app_category r cat)
      (AppRegistry.apps_for_app_category_union r cat) :=
    List.perm_insertionSort _ _
  have hnd := apps_for_app_category_union_id_nodup r cat
  refine ⟨hperm, List.sorted_insertionSort _ _,
    fun a b hab hle => List.pair_sublist_insertionSort hle hab, hnd, ?_⟩
  exact ((hperm.map AppEntry.id).nodup_iff).mpr hnd

/-- Witness for C6 amended on the tie registry: the result is sorted and
keeps the tied pair in union order. -/
theorem apps_for_app_category_sorted_stable_witness :
    List.Sorted AppRegistry.entryNameLe (AppRegistry.apps_for_app_category
      (AppRegistry.build [entryTieB, entryTieA]) .Calculator) ∧
    List.Sublist [entryTieB, entryTieA] (AppRegistry.apps_for_app_category
      (AppRegistry.build [entryTieB, entryTieA]) .Calculator) :=
  ⟨(apps_for_app_category_sorted_stable (AppRegistry.build [entryTieB, entryTieA])
      .Calculator).2.1,
   (apps_for_app_category_sorted_stable (AppRegistry.build [entryTieB, entryTieA])
      .Calculator).2.2.1 entryTieB entryTieA (by decide) (by decide)⟩

/-!
## Claim C9: exact and wildcard MIME lookups
-/

theorem hmGetD_hmInsert_self {α : Type} (m : List (Str × α)) (k : Str) (v d : α) :
    hmGetD (hmInsert m k v) k d = v := by
  rw [hmGetD, hmGet_hmInsert_self, Option.getD_some]

theorem hmGetD_hmInsert_ne {α : Type} (m : List (Str × α)) {k k' : Str} (v d : α)
    (h : k' ≠ k) : hmGetD (hmInsert m k v) k' d = hmGetD m k' d := by
  rw [hmGetD, hmGet_hmInsert_ne m v h, hmGetD]

theorem pushFold_persist (id : Str) :
    ∀ (mimes : List Str) (m : List (Str × List Str)) (k i : Str),
      i ∈ hmGetD m k [] →
      i ∈ hmGetD (mimes.foldl (fun m mime => hmInsert m mime (hmGetD m mime [] ++ [id])) m) k [] := by
  intro mimes
  induction mimes with
  | nil => exact fun m k i h => h
  | cons mime rest ih =>
    intro m k i h
    apply ih
    by_cases hk : k = mime
    · subst hk
      rw [hmGetD_hmInsert_self]
      exact List.mem_append_left _ h
    · rw [hmGetD_hmInsert_ne _ _ _ hk]
      exact h

theorem pushFold_mem_self (id : Str) :
    ∀ (mimes : List Str) (m : List (Str × List Str)) (k : Str), k ∈ mimes →
      id ∈ hmGetD (mimes.foldl (fun m mime => hmInsert m mime (hmGetD m mime [] ++ [id])) m) k [] := by
  intro mimes
  induction mimes with
  | nil => intro m k h; exact absurd h (List.not_mem_nil k)
  | cons mime rest ih =>
    intro m k hk
    rw [show (mime :: rest).foldl (fun m mime => hmInsert m mime (hmGetD m mime [] ++ [id])) m =
      rest.foldl (fun m mime => hmInsert m mime (hmGetD m mime [] ++ [id]))
        (hmInsert m mime (hmGetD m mime [] ++ [id])) from rfl]
    rcases List.mem_cons.mp hk with rfl | hk
    · apply pushFold_persist
      rw [hmGetD_hmInsert_self]
      exact List.mem_append_right _ (List.mem_singleton.mpr rfl)
    · exact ih _ k hk

theorem pushFold_mem_inv (id : Str) :
    ∀ (mimes : List Str) (m : List (Str × List Str)) (k i : Str),
      i ∈ hmGetD (mimes.foldl (fun m mime => hmInsert m mime (hmGetD m mime [] ++ [id])) m) k [] →
      i ∈ hmGetD m k [] ∨ (i = id ∧ k ∈ mimes) := by
  intro mimes
  induction mimes with
  | nil => exact fun m k i h => Or.inl h
  | cons mime rest ih =>
    intro m k i h
    rcases ih _ k i h with h2 | ⟨rfl, hk⟩
    · by_cases hk : k = mime
      · subst hk
        rw [hmGetD_hmInsert_self] at h2
        rcases List.mem_append.mp h2 with h3 | h3
        · exact Or.inl h3
        · exact Or.inr ⟨List.mem_singleton.mp h3, List.mem_cons_self _ _⟩
      · rw [hmGetD_hmInsert_ne _ _ _ hk] at h2
        exact Or.inl h2
    · exact Or.inr ⟨rfl, List.mem_cons_of_mem _ hk⟩

theorem build_loop_reg_inv (entries : List AppEntry) :
    ∀ r : AppRegistry,
      (∀ i e, hmGet r.apps i = some e → e.id = i ∧
        ∀ m ∈ e.mime_types, i ∈ hmGetD r.by_mime m []) →
      (∀ k i, i ∈ hmGetD r.by_mime k [] →
        ∃ e, hmGet r.apps i = some e ∧ k ∈ e.mime_types) →
      (∀ i e, hmGet (entries.foldl AppRegistry.index_app r).apps i = some e → e.id = i ∧
        ∀ m ∈ e.mime_types, i ∈ hmGetD (entries.foldl AppRegistry.index_app r).by_mime m []) ∧
      (∀ k i, i ∈ hmGetD (entries.foldl AppRegistry.index_app r).by_mime k [] →
        ∃ e, hmGet (entries.foldl AppRegistry.index_app r).apps i = some e ∧
          k ∈ e.mime_types) := by
  induction entries with
  | nil => exact fun r h1 h2 => ⟨h1, h2⟩
  | cons e es ih =>
    intro r h1 h2
    by_cases hc : (hmGet r.apps e.id).isSome = true
    · have hre : r.index_app e = r := by rw [AppRegistry.index_app, if_pos hc]
      exact ih (r.index_app e) (by rw [hre]; exact h1) (by rw [hre]; exact h2)
    · have hby : (r.index_app e).by_mime = e.mime_types.foldl
          (fun m mime => hmInsert m mime (hmGetD m mime [] ++ [e.id])) r.by_mime := by
        rw [AppRegistry.index_app, if_neg hc]
      have happs : (r.index_app e).apps = hmInsert r.apps e.id e := by
        rw [AppRegistry.index_app, if_neg hc]
      have hfresh : ∀ x : AppEntry, hmGet r.apps e.id ≠ some x := by
        intro x hx
        rw [hx] at hc
        exact hc rfl
      refine ih (r.index_app e) ?_ ?_
      · intro i e' he'
        rw [happs] at he'
        by_cases hi : i = e.id
        · subst hi
          rw [hmGet_hmInsert_self] at he'
          obtain rfl : e = e' := Option.some_injective _ he'
          refine ⟨rfl, fun m hm => ?_⟩
          rw [hby]
          exact pushFold_mem_self e.id e.mime_types r.by_mime m hm
        · rw [hmGet_hmInsert_ne _ _ hi] at he'
          obtain ⟨hid, hmem⟩ := h1 i e' he'
          refine ⟨hid, fun m hm => ?_⟩
          rw [hby]
          exact pushFold_persist e.id e.mime_types r.by_mime m i (hmem m hm)
      · intro k i hi
        rw [hby] at hi
        rcases pushFold_mem_inv e.id e.mime_types r.by_mime k i hi with h3 | ⟨rfl, hk⟩
        · obtain ⟨e'', he'', hke⟩ := h2 k i h3
          have hne : i ≠ e.id := by
            intro hie
            rw [hie] at he''
            exact hfresh e'' he''
          refine ⟨e'', ?_, hke⟩
          rw [happs, hmGet_hmInsert_ne _ _ hne]
          exact he''
        · refine ⟨e, ?_, hk⟩
          rw [happs, hmGet_hmInsert_self]

theorem build_reg_inv (entries : List AppEntry) :
    (∀ i e, hmGet (AppRegistry.build entries).apps i = some e → e.id = i ∧
      ∀ m ∈ e.mime_types, i ∈ hmGetD (AppRegistry.build entries).by_mime m []) ∧
    (∀ k i, i ∈ hmGetD (AppRegistry.build entries).by_mime k [] →
      ∃ e, hmGet (AppRegistry.build entries).apps i = some e ∧ k ∈ e.mime_types) :=
  build_loop_reg_inv entries AppRegistry.empty
    (by intro i e he; exact absurd he (by simp [AppRegistry.empty, hmGet]))
    (by intro k i hi; exact absurd hi (by simp [AppRegistry.empty, hmGetD, hmGet]))

theorem seenPush_fold_mem (ids : List Str) :
    ∀ (st : List Str × List Str) (y : Str),
      (y ∈ (ids.foldl AppRegistry.seenPush st).1 ↔ y ∈ st.1 ∨ y ∈ ids) ∧
      (y ∈ (ids.foldl AppRegistry.seenPush st).2 ↔ y ∈ st.2 ∨ (y ∈ ids ∧ y ∉ st.1)) := by
  induction ids with
  | nil =>
    intro st y
    simp
  | cons i rest ih =>
    intro st y
    by_cases hi : i ∈ st.1
    · have hstep : AppRegistry.seenPush st i = st := by
        rw [AppRegistry.seenPush, if_pos hi]
      have hih := ih (AppRegistry.seenPush st i) y
      rw [hstep] at hih
      constructor
      · rw [show (i :: rest).foldl AppRegistry.seenPush st =
            rest.foldl AppRegistry.seenPush (AppRegistry.seenPush st i) from rfl, hstep, hih.1]
        constructor
        · rintro (h | h)
          · exact Or.inl h
          · exact Or.inr (List.mem_cons_of_mem _ h)
        · rintro (h | h)
          · exact Or.inl h
          · rcases List.mem_cons.mp h with rfl | h2
            · exact Or.inl hi
            · exact Or.inr h2
      · rw [show (i :: rest).foldl AppRegistry.seenPush st =
            rest.foldl AppRegistry.seenPush (AppRegistry.seenPush st i) from rfl, hstep, hih.2]
        constructor
        · rintro (h | ⟨h2, h3⟩)
          · exact Or.inl h
          · exact Or.inr ⟨List.mem_cons_of_mem _ h2, h3⟩
        · rintro (h | ⟨h2, h3⟩)
          · exact Or.inl h
          · rcases List.mem_cons.mp h2 with rfl | h4
            · exact absurd hi h3
            · exact Or.inr ⟨h4, h3⟩
    · have hstep : AppRegistry.seenPush st i = (i :: st.1, st.2 ++ [i]) := by
        rw [AppRegistry.seenPush, if_neg hi]
      have hih := ih (AppRegistry.seenPush st i) y
      rw [hstep] at hih
      constructor
      · rw [show (i :: rest).foldl AppRegistry.seenPush st =
            rest.foldl AppRegistry.seenPush (AppRegistry.seenPush st i) from rfl, hstep, hih.1]
        constructor
        · rintro (h | h)
          · rcases List.mem_cons.mp h with rfl | h2
            · exact Or.inr (List.mem_cons_self _ _)
            · exact Or.inl h2
          · exact Or.inr (List.mem_cons_of_mem _ h)
        · rintro (h | h)
          · exact Or.inl (List.mem_cons_of_mem _ h)
          · rcases List.mem_cons.mp h with rfl | h2
            · exact Or.inl (List.mem_cons_self _ _)
            · exact Or.inr h2
      · rw [show (i :: rest).foldl AppRegistry.seenPush st =
            rest.foldl AppRegistry.seenPush (AppRegistry.seenPush st i) from rfl, hstep, hih.2]
        constructor
        · rintro (h | ⟨h2, h3⟩)
          · rcases List.mem_append.mp h with h4 | h4
            · exact Or.inl h4
            · refine Or.inr ⟨?_, ?_⟩
              · rw [List.mem_singleton.mp h4]
                exact List.mem_cons_self _ _
              · rw [List.mem_singleton.mp h4]
                exact hi
          · refine Or.inr ⟨List.mem_cons_of_mem _ h2, fun h5 => h3 (List.mem_cons_of_mem _ h5)⟩
        · rintro (h | ⟨h2, h3⟩)
          · exact Or.inl (List.mem_append_left _ h)
          · rcases List.mem_cons.mp h2 with rfl | h4
            · exact Or.inl (List.mem_append_right _ (List.mem_singleton.mpr rfl))
            · by_cases hyi : y = i
              · exact Or.inl (List.mem_append_right _ (List.mem_singleton.mpr hyi))
              · refine Or.inr ⟨h4, fun h5 => ?_⟩
                rcases List.mem_cons.mp h5 with h6 | h6
                · exact hyi h6
                · exact h3 h6

theorem seenPush_fold_nodup (ids : List Str) :
    ∀ st : List Str × List Str,
      (st.2.Nodup ∧ ∀ y ∈ st.2, y ∈ st.1) →
      ((ids.foldl AppRegistry.seenPush st).2.Nodup ∧
        ∀ y ∈ (ids.foldl AppRegistry.seenPush st).2, y ∈ (ids.foldl AppRegistry.seenPush st).1) := by
  induction ids with
  | nil => exact fun st h => h
  | cons i rest ih =>
    intro st h
    have hstep : ((AppRegistry.seenPush st i).2.Nodup ∧
        ∀ y ∈ (AppRegistry.seenPush st i).2, y ∈ (AppRegistry.seenPush st i).1) := by
      rw [AppRegistry.seenPush]
      by_cases hi : i ∈ st.1
      · rw [if_pos hi]
        exact h
      · rw [if_neg hi]
        constructor
        · rw [List.nodup_append]
          refine ⟨h.1, by simp, ?_⟩
          intro x hx hy
          rw [List.mem_singleton.mp hy] at hx
          exact hi (h.2 i hx)
        · intro y hy
          rcases List.mem_append.mp hy with hy | hy
          · exact List.mem_cons_of_mem _ (h.2 y hy)
          · rw [List.mem_singleton.mp hy]
            exact List.mem_cons_self _ _
    exact ih (AppRegistry.seenPush st i) hstep

theorem filterMap_hmGet_map_id (apps : List (Str × AppEntry)) :
    ∀ ids : List Str, (∀ i ∈ ids, ∃ e, hmGet apps i = some e ∧ e.id = i) →
      ((ids.filterMap (fun id => hmGet apps id)).map AppEntry.id) = ids := by
  intro ids
  induction ids with
  | nil => intro _; rfl
  | cons i rest ih =>
    intro h
    obtain ⟨e, he, hei⟩ := h i (List.mem_cons_self _ _)
    rw [List.filterMap_cons, he, List.map_cons, hei,
      ih (fun j hj => h j (List.mem_cons_of_mem _ hj))]

theorem filterMap_map_id_sublist (apps : List (Str × AppEntry))
    (h : ∀ i e, hmGet apps i = some e → e.id = i) :
    ∀ ids : List Str,
      List.Sublist ((ids.filterMap (fun id => hmGet apps id)).map AppEntry.id) ids := by
  intro ids
  induction ids with
  | nil => exact List.Sublist.refl []
  | cons i rest ih =>
    rw [List.filterMap_cons]
    cases he : hmGet apps i with
    | none => exact ih.trans (List.sublist_cons_self i rest)
    | some e =>
      rw [List.map_cons, h i e he]
      exact ih.cons₂ i

theorem apps_for_mime_split (r : AppRegistry) (mime main_type rest2 : Str)
    (hsplit : splitOnceChar '/' mime = some (main_type, rest2)) :
    AppRegistry.apps_for_mime r mime =
      ((hmGetD r.by_mime (main_type ++ "/*".toList) []).foldl AppRegistry.seenPush
        ((hmGetD r.by_mime mime []).foldl AppRegistry.seenPush ([], []))).2.filterMap
        (fun id => hmGet r.apps id) := by
  simp only [AppRegistry.apps_for_mime, hsplit]

theorem apps_for_mime_nosplit (r : AppRegistry) (mime : Str)
    (hsplit : splitOnceChar '/' mime = none) :
    AppRegistry.apps_for_mime r mime =
      ((hmGetD r.by_mime mime []).foldl AppRegistry.seenPush ([], [])).2.filterMap
        (fun id => hmGet r.apps id) := by
  simp only [AppRegistry.apps_for_mime, hsplit]

theorem seenPush_two_fold_mem (direct pattern : List Str) (y : Str) :
    y ∈ (pattern.foldl AppRegistry.seenPush
      (direct.foldl AppRegistry.seenPush ([], []))).2 ↔ y ∈ direct ∨ y ∈ pattern := by
  have h1 := seenPush_fold_mem direct ([], []) y
  have h2 := seenPush_fold_mem pattern (direct.foldl AppRegistry.seenPush ([], [])) y
  rw [h2.2, h1.2, h1.1]
  constructor
  · rintro ((h | ⟨h, _⟩) | ⟨h, _⟩)
    · exact absurd h (List.not_mem_nil y)
    · exact Or.inl h
    · exact Or.inr h
  · rintro (h | h)
    · exact Or.inl (Or.inr ⟨h, List.not_mem_nil y⟩)
    · by_cases hd : y ∈ direct
      · exact Or.inl (Or.inr ⟨hd, List.not_mem_nil y⟩)
      · refine Or.inr ⟨h, fun h2 => ?_⟩
        rcases h2 with h3 | h3
        · exact List.not_mem_nil y h3
        · exact hd h3

theorem seenPush_one_fold_mem (direct : List Str) (y : Str) :
    y ∈ (direct.foldl AppRegistry.seenPush ([], [])).2 ↔ y ∈ direct := by
  have h1 := seenPush_fold_mem direct ([], []) y
  rw [h1.2]
  constructor
  · rintro (h | ⟨h, _⟩)
    · exact absurd h (List.not_mem_nil y)
    · exact h
  · intro h
    exact Or.inr ⟨h, List.not_mem_nil y⟩

/-- C9 counterexample: a descriptor declaring both `audio/*` and
`video/mp4` is returned by `apps_for_mime "video/mp4"`, so the result is
not free of descriptors declaring `audio/*` as claimed. -/
theorem apps_for_mime_crosstype_counterexample :
    entryBoth ∈ AppRegistry.apps_for_mime (AppRegistry.build [entryBoth])
      "video/mp4".toList ∧
    "audio/*".toList ∈ entryBoth.mime_types := by
  exact ⟨by decide, by decide⟩

/-- C9 amended: over any registry built from parsed descriptors,
(1) every stored descriptor declaring `audio/*` is returned by
`apps_for_mime "audio/mpeg"`; (2) every descriptor returned by
`apps_for_mime "video/mp4"` declares `video/mp4` or `video/*` (so a
descriptor declaring `audio/*` appears there only when it also declares
one of those); (3) for any MIME type with a slash, the returned ids are
the first-occurrence de-duplication of the exact-match bucket followed by
the main-type wildcard bucket; (4) the returned ids are always
duplicate-free. -/
theorem apps_for_mime_wildcard (entries : List AppEntry) :
    (∀ i e, hmGet (AppRegistry.build entries).apps i = some e →
      "audio/*".toList ∈ e.mime_types →
      e ∈ AppRegistry.apps_for_mime (AppRegistry.build entries) "audio/mpeg".toList) ∧
    (∀ e ∈ AppRegistry.apps_for_mime (AppRegistry.build entries) "video/mp4".toList,
      "video/mp4".toList ∈ e.mime_types ∨ "video/*".toList ∈ e.mime_types) ∧
    (∀ mime main_type rest2, splitOnceChar '/' mime = some (main_type, rest2) →
      (AppRegistry.apps_for_mime (AppRegistry.build entries) mime).map AppEntry.id =
        dedupFirst (hmGetD (AppRegistry.build entries).by_mime mime [] ++
          hmGetD (AppRegistry.build entries).by_mime (main_type ++ "/*".toList) [])) ∧
    (∀ mime,
      ((AppRegistry.apps_for_mime (AppRegistry.build entries) mime).map AppEntry.id).Nodup) := by
  obtain ⟨hR1, hR3⟩ := build_reg_inv entries
  refine ⟨?_, ?_, ?_, ?_⟩
  · intro i e he hw
    obtain ⟨hid, hmem⟩ := hR1 i e he
    have hiw := hmem _ hw
    rw [apps_for_mime_split _ _ "audio".toList "mpeg".toList (by decide),
      show ("audio".toList ++ "/*".toList) = "audio/*".toList from by decide]
    apply List.mem_filterMap.mpr
    refine ⟨i, ?_, he⟩
    rw [seenPush_two_fold_mem]
    exact Or.inr hiw
  · intro e he
    rw [apps_for_mime_split _ _ "video".toList "mp4".toList (by decide),
      show ("video".toList ++ "/*".toList) = "video/*".toList from by decide] at he
    obtain ⟨i, hi, hei⟩ := List.mem_filterMap.mp he
    rw [seenPush_two_fold_mem] at hi
    rcases hi with hi | hi
    · obtain ⟨e'', he'', hke⟩ := hR3 _ i hi
      rw [hei] at he''
      obtain rfl : e'' = e := (Option.some_injective _ he'').symm
      exact Or.inl hke
    · obtain ⟨e'', he'', hke⟩ := hR3 _ i hi
      rw [hei] at he''
      obtain rfl : e'' = e := (Option.some_injective _ he'').symm
      exact Or.inr hke
  · intro mime main_type rest2 hsplit
    rw [apps_for_mime_split _ _ _ _ hsplit, dedupFirst, List.foldl_append]
    apply filterMap_hmGet_map_id
    intro i hi
    rw [seenPush_two_fold_mem] at hi
    rcases hi with hi | hi
    · obtain ⟨e, he, _⟩ := hR3 _ i hi
      exact ⟨e, he, (hR1 i e he).1⟩
    · obtain ⟨e, he, _⟩ := hR3 _ i hi
      exact ⟨e, he, (hR1 i e he).1⟩
  · intro mime
    have hbase : ((([], []) : List Str × List Str).2.Nodup ∧
        ∀ y ∈ (([], []) : List Str × List Str).2, y ∈ (([], []) : List Str × List Str).1) := by
      simp
    have hsub := filterMap_map_id_sublist (AppRegistry.build entries).apps
      (fun i e he => (hR1 i e he).1)
    cases hsplit : splitOnceChar '/' mime with
    | none =>
      rw [apps_for_mime_nosplit _ _ hsplit]
      have hnd := (seenPush_fold_nodup (hmGetD (AppRegistry.build entries).by_mime mime [])
        ([], []) hbase).1
      exact List.Nodup.sublist (hsub _) hnd
    | some pr =>
      obtain ⟨main_type, rest2⟩ := pr
      rw [apps_for_mime_split _ _ _ _ hsplit]
      have hnd := (seenPush_fold_nodup
        (hmGetD (AppRegistry.build entries).by_mime (main_type ++ "/*".toList) []) _
        (seenPush_fold_nodup (hmGetD (AppRegistry.build entries).by_mime mime [])
          ([], []) hbase)).1
      exact List.Nodup.sublist (hsub _) hnd

/-- Witness for C9 amended: a registry holding one descriptor that
declares `audio/*`, returned for `audio/mpeg`. -/
theorem apps_for_mime_wildcard_witness :
    hmGet (AppRegistry.build [entryAudioWild]).apps "w.desktop".toList =
      some entryAudioWild ∧
    "audio/*".toList ∈ entryAudioWild.mime_types ∧
    entryAudioWild ∈ AppRegistry.apps_for_mime (AppRegistry.build [entryAudioWild])
      "audio/mpeg".toList :=
  ⟨by decide, by decide,
    (apps_for_mime_wildcard [entryAudioWild]).1 "w.desktop".toList entryAudioWild
      (by decide) (by decide)⟩

/-!
## Claim C10: app-id validation is only a suffix-and-length check
-/

/-- C10: `validate_app_id` accepts exactly the strings ending in
`.desktop` with length greater than 8; consequently `set_default` accepts
an id containing spaces, `;`, `=` and `[`, stores it verbatim in both
mappings, and `save` serializes it verbatim into the written content. -/
theorem validate_app_id_only_suffix_and_length :
    (∀ app_id : Str,
      (MimeAppsConfig.validate_app_id app_id).isOk = true ↔
        (".desktop".toList.isSuffixOf app_id = true ∧ 8 < app_id.length)) ∧
    (MimeAppsConfig.set_default {} "text/plain".toList
      "a b;c=[d].desktop".toList).1.isOk = true ∧
    hmGet (MimeAppsConfig.set_default {} "text/plain".toList
        "a b;c=[d].desktop".toList).2.default_apps "text/plain".toList =
      some [ "a b;c=[d].desktop".toList ] ∧
    hmGet (MimeAppsConfig.set_default {} "text/plain".toList
        "a b;c=[d].desktop".toList).2.added_associations "text/plain".toList =
      some [ "a b;c=[d].desktop".toList ] ∧
    MimeAppsConfig.save (MimeAppsConfig.set_default {} "text/plain".toList
        "a b;c=[d].desktop".toList).2 =
      "[Default Applications]\ntext/plain=a b;c=[d].desktop\n\n[Added Associations]\ntext/plain=a b;c=[d].desktop;\n\n".toList := by
  refine ⟨?_, by decide, by decide, by decide, by decide⟩
  intro app_id
  rw [MimeAppsConfig.validate_app_id]
  by_cases hs : (".desktop".toList.isSuffixOf app_id) = true
  · rw [if_neg (not_not_intro hs)]
    by_cases hl : app_id.length ≤ 8
    · rw [if_pos hl]
      constructor
      · intro h
        exact absurd h (by simp [Except.isOk, Except.toBool])
      · intro h
        omega
    · rw [if_neg hl]
      constructor
      · intro _
        exact ⟨hs, by omega⟩
      · intro _
        rfl
  · rw [if_pos hs]
    constructor
    · intro h
      exact absurd h (by simp [Except.isOk, Except.toBool])
    · intro h
      exact absurd h.1 hs

/-!
## Claim C2: string-level lemmas for the save/parse round trip
-/

theorem splitOnChar_not_mem {c : Char} : ∀ {s : Str}, c ∉ s → splitOnChar c s = [s] := by
  intro s
  induction s with
  | nil => intro _; rfl
  | cons x xs ih =>
    intro h
    have hx : ¬ x = c := fun he => h (he ▸ List.mem_cons_self x xs)
    rw [splitOnChar, if_neg hx, ih (fun hm => h (List.mem_cons_of_mem x hm))]

theorem splitOnChar_append_cons {c : Char} :
    ∀ {a : Str}, c ∉ a → ∀ b : Str, splitOnChar c (a ++ c :: b) = a :: splitOnChar c b := by
  intro a
  induction a with
  | nil =>
    intro _ b
    rw [List.nil_append, splitOnChar, if_pos rfl]
  | cons x xs ih =>
    intro h b
    have hx : ¬ x = c := fun he => h (he ▸ List.mem_cons_self x xs)
    rw [List.cons_append, splitOnChar, if_neg hx,
      ih (fun hm => h (List.mem_cons_of_mem x hm)) b]

theorem splitOnChar_joinSep {c : Char} :
    ∀ {v : List Str}, v ≠ [] → (∀ x ∈ v, c ∉ x) → splitOnChar c (joinSep c v) = v := by
  intro v
  induction v with
  | nil => intro h _; exact absurd rfl h
  | cons x xs ih =>
    intro _ h
    cases xs with
    | nil =>
      rw [joinSep, splitOnChar_not_mem (h x (List.mem_cons_self x []))]
    | cons y ys =>
      rw [joinSep, splitOnChar_append_cons (h x (List.mem_cons_self x (y :: ys))),
        ih (by simp) (fun z hz => h z (List.mem_cons_of_mem x hz))]

theorem splitOnChar_joinSep_concat {c : Char} :
    ∀ {v : List Str}, v ≠ [] → (∀ x ∈ v, c ∉ x) →
      splitOnChar c (joinSep c v ++ [c]) = v ++ [[]] := by
  intro v
  induction v with
  | nil => intro h _; exact absurd rfl h
  | cons x xs ih =>
    intro _ h
    cases xs with
    | nil =>
      rw [joinSep, show (x ++ [c]) = x ++ c :: [] from rfl,
        splitOnChar_append_cons (h x (List.mem_cons_self x []))]
      rfl
    | cons y ys =>
      rw [joinSep, List.append_assoc, List.cons_append,
        splitOnChar_append_cons (h x (List.mem_cons_self x (y :: ys))),
        ih (by simp) (fun z hz => h z (List.mem_cons_of_mem x hz))]
      rfl

theorem splitOnceChar_append {c : Char} :
    ∀ {a : Str}, c ∉ a → ∀ b : Str, splitOnceChar c (a ++ c :: b) = some (a, b) := by
  intro a
  induction a with
  | nil =>
    intro _ b
    rw [List.nil_append, splitOnceChar, if_pos rfl]
  | cons x xs ih =>
    intro h b
    have hx : ¬ x = c := fun he => h (he ▸ List.mem_cons_self x xs)
    rw [List.cons_append, splitOnceChar, if_neg hx,
      ih (fun hm => h (List.mem_cons_of_mem x hm)) b]
    rfl

theorem dropWhile_eq_self_of_head {p : Char → Bool} {s : Str}
    (h : ∀ ch, s.head? = some ch → p ch = false) : s.dropWhile p = s := by
  cases s with
  | nil => rfl
  | cons x xs =>
    rw [List.dropWhile_cons, if_neg]
    rw [h x rfl]
    simp

theorem trim_eq_self {s : Str}
    (hh : ∀ ch, s.head? = some ch → isRustWhitespace ch = false)
    (hl : ∀ ch, s.getLast? = some ch → isRustWhitespace ch = false) : trim s = s := by
  rw [trim, dropWhile_eq_self_of_head hh, dropWhile_eq_self_of_head
    (fun ch hch => hl ch (by rw [← List.head?_reverse]; exact hch)), List.reverse_reverse]

theorem mem_joinSep {c : Char} :
    ∀ {v : List Str} {ch : Char}, ch ∈ joinSep c v → ch = c ∨ ∃ x ∈ v, ch ∈ x := by
  intro v
  induction v with
  | nil => intro ch h; exact absurd h (List.not_mem_nil ch)
  | cons x xs ih =>
    intro ch h
    cases xs with
    | nil =>
      rw [joinSep] at h
      exact Or.inr ⟨x, List.mem_cons_self x [], h⟩
    | cons y ys =>
      rw [joinSep] at h
      rcases List.mem_append.mp h with h2 | h2
      · exact Or.inr ⟨x, List.mem_cons_self x (y :: ys), h2⟩
      · rcases List.mem_cons.mp h2 with rfl | h3
        · exact Or.inl rfl
        · rcases ih h3 with h4 | ⟨z, hz, hcz⟩
          · exact Or.inl h4
          · exact Or.inr ⟨z, List.mem_cons_of_mem x hz, hcz⟩

theorem joinSep_getLast?_some {c : Char} :
    ∀ {v : List Str}, v ≠ [] → (∀ x ∈ v, x ≠ []) →
      ∃ x ∈ v, ∃ ch, x.getLast? = some ch ∧ (joinSep c v).getLast? = some ch := by
  intro v
  induction v with
  | nil => intro h _; exact absurd rfl h
  | cons x xs ih =>
    intro _ h
    cases xs with
    | nil =>
      have hx := h x (List.mem_cons_self x [])
      cases hch : x.getLast? with
      | none => exact absurd (List.getLast?_eq_none_iff.mp hch) hx
      | some ch => exact ⟨x, List.mem_cons_self x [], ch, hch, by rw [joinSep]; exact hch⟩
    | cons y ys =>
      obtain ⟨z, hz, ch, hch, hjch⟩ := ih (by simp) (fun w hw => h w (List.mem_cons_of_mem x hw))
      refine ⟨z, List.mem_cons_of_mem x hz, ch, hch, ?_⟩
      rw [joinSep, show (c :: joinSep c (y :: ys)) = [c] ++ joinSep c (y :: ys) from rfl,
        ← List.append_assoc, List.getLast?_append, hjch]
      rfl

theorem splitOnChar_joinLines :
    ∀ {ls : List Str}, (∀ l ∈ ls, '\n' ∉ l) →
      splitOnChar '\n' (MimeAppsConfig.joinLines ls) = ls ++ [[]] := by
  intro ls
  induction ls with
  | nil => intro _; rfl
  | cons l rest ih =>
    intro h
    have he : MimeAppsConfig.joinLines (l :: rest) =
        l ++ '\n' :: MimeAppsConfig.joinLines rest := by
      rw [MimeAppsConfig.joinLines, List.map_cons, List.flatten_cons, List.append_assoc]
      rfl
    rw [he, splitOnChar_append_cons (h l (List.mem_cons_self l rest)),
      ih (fun x hx => h x (List.mem_cons_of_mem l hx))]
    rfl

theorem bufLines_joinLines {ls : List Str}
    (h : ∀ l ∈ ls, '\n' ∉ l ∧ l.getLast? ≠ some '\r') :
    bufLines (MimeAppsConfig.joinLines ls) = ls := by
  rw [bufLines]
  rw [splitOnChar_joinLines (fun l hl => (h l hl).1)]
  rw [show ((ls ++ [[]] : List Str).getLast? = some []) from List.getLast?_concat ls]
  simp only [if_pos rfl]
  rw [List.dropLast_concat]
  have : ∀ l ∈ ls, stripCR l = l := by
    intro l hl
    rw [stripCR, if_neg (h l hl).2]
  calc ls.map stripCR = ls.map id := List.map_congr_left (fun l hl => this l hl)
    _ = ls := List.map_id ls

theorem splitOnChar_ne_nil {c : Char} : ∀ s : Str, splitOnChar c s ≠ [] := by
  intro s
  cases s with
  | nil => simp [splitOnChar]
  | cons x xs =>
    rw [splitOnChar]
    by_cases hx : x = c
    · rw [if_pos hx]
      simp
    · rw [if_neg hx]
      rcases splitOnChar c xs with _ | ⟨p, ps⟩ <;> simp

theorem joinSep_splitOnChar {c : Char} : ∀ s : Str, joinSep c (splitOnChar c s) = s := by
  intro s
  induction s with
  | nil => rfl
  | cons x xs ih =>
    rw [splitOnChar]
    by_cases hx : x = c
    · rw [if_pos hx]
      obtain ⟨p, ps, hl⟩ := List.exists_cons_of_ne_nil (splitOnChar_ne_nil xs)
      rw [hl] at ih ⊢
      rw [joinSep, List.nil_append, ih, hx]
    · rw [if_neg hx]
      rcases hsp : splitOnChar c xs with _ | ⟨p, ps⟩
      · exact absurd hsp (splitOnChar_ne_nil xs)
      · rw [hsp] at ih
        cases ps with
        | nil =>
          rw [joinSep] at ih
          rw [joinSep, ih]
        | cons q qs =>
          rw [joinSep] at ih
          rw [joinSep, List.cons_append, ih]

theorem mimeChar_props {ch : Char} (h : isMimeChar ch = true ∨ ch = '/') :
    isRustWhitespace ch = false ∧ ch ≠ '\n' ∧ ch ≠ '=' ∧ ch ≠ ';' ∧ ch ≠ '#' ∧ ch ≠ '[' := by
  rcases h with h | rfl
  · simp only [isMimeChar, Bool.or_eq_true, decide_eq_true_eq] at h
    rcases h with ((ha | rfl) | rfl) | rfl
    · refine ⟨?_, ?_, ?_, ?_, ?_, ?_⟩
      · by_contra hw
        rw [Bool.not_eq_false] at hw
        have hmem : ch ∈ rustWhitespaceChars := of_decide_eq_true hw
        simp only [rustWhitespaceChars, List.mem_cons, List.not_mem_nil, or_false] at hmem
        rcases hmem with rfl | rfl | rfl | rfl | rfl | rfl | rfl | rfl | rfl | rfl | rfl |
          rfl | rfl | rfl | rfl | rfl | rfl | rfl | rfl | rfl | rfl | rfl | rfl | rfl | rfl <;>
          exact absurd ha (by decide)
      · intro rfl2
        rw [rfl2] at ha
        exact absurd ha (by decide)
      · intro rfl2
        rw [rfl2] at ha
        exact absurd ha (by decide)
      · intro rfl2
        rw [rfl2] at ha
        exact absurd ha (by decide)
      · intro rfl2
        rw [rfl2] at ha
        exact absurd ha (by decide)
      · intro rfl2
        rw [rfl2] at ha
        exact absurd ha (by decide)
    · exact ⟨by decide, by decide, by decide, by decide, by decide, by decide⟩
    · exact ⟨by decide, by decide, by decide, by decide, by decide, by decide⟩
    · exact ⟨by decide, by decide, by decide, by decide, by decide, by decide⟩
  · exact ⟨by decide, by decide, by decide, by decide, by decide, by decide⟩

theorem valid_mime_chars {m : Str}
    (h : (MimeAppsConfig.validate_mime_type m).isOk = true) :
    m ≠ [] ∧ ∀ ch ∈ m, isMimeChar ch = true ∨ ch = '/' := by
  rw [MimeAppsConfig.validate_mime_type] at h
  by_cases hs : '/' ∈ m
  · rw [if_pos hs] at h
    rcases hsp : splitOnChar '/' m with _ | ⟨t, _ | ⟨s, _ | ⟨u, rest⟩⟩⟩
    · exact absurd hsp (splitOnChar_ne_nil m)
    · rw [hsp] at h
      exact absurd h (by simp [Except.isOk, Except.toBool])
    · rw [hsp] at h
      have hm : m = t ++ '/' :: s := by
        have hj := joinSep_splitOnChar (c := '/') m
        rw [hsp] at hj
        rw [← hj, joinSep, joinSep]
      dsimp only at h
      split_ifs at h with h1 h2 h3
      · exact absurd h (by simp [Except.isOk, Except.toBool])
      · exact absurd h (by simp [Except.isOk, Except.toBool])
      · obtain ⟨ht, hsall⟩ := Bool.and_eq_true_iff.mp h3
        constructor
        · rw [hm]
          simp
        · intro ch hch
          rw [hm] at hch
          rcases List.mem_append.mp hch with h4 | h4
          · exact Or.inl (List.all_eq_true.mp ht ch h4)
          · rcases List.mem_cons.mp h4 with rfl | h5
            · exact Or.inr rfl
            · exact Or.inl (List.all_eq_true.mp hsall ch h5)
      · exact absurd h (by simp [Except.isOk, Except.toBool])
    · rw [hsp] at h
      exact absurd h (by simp [Except.isOk, Except.toBool])
  · rw [if_neg hs] at h
    exact absurd h (by simp [Except.isOk, Except.toBool])

theorem validate_app_id_length {id : Str}
    (h : (MimeAppsConfig.validate_app_id id).isOk = true) : 8 < id.length := by
  rw [MimeAppsConfig.validate_app_id] at h
  split_ifs at h with h1 h2
  all_goals first
    | omega
    | exact absurd h (by simp [Except.isOk, Except.toBool])

theorem goodId_ne_nil {id : Str} (h : goodId id) : id ≠ [] := by
  have := validate_app_id_length h.1
  intro he
  rw [he] at this
  simp at this

theorem goodId_head_ws {id : Str} (h : goodId id) :
    ∀ ch, id.head? = some ch → isRustWhitespace ch = false := by
  intro ch hch
  refine h.2.2.2.1 ch ?_
  rw [hch]
  simp

theorem goodId_last_ws {id : Str} (h : goodId id) :
    ∀ ch, id.getLast? = some ch → isRustWhitespace ch = false := by
  intro ch hch
  refine h.2.2.2.2 ch ?_
  rw [hch]
  simp

theorem goodId_getLast_ne_cr {id : Str} (h : goodId id) : id.getLast? ≠ some '\r' := by
  intro he
  exact absurd (goodId_last_ws h '\r' he) (by decide)

theorem hmGet_eq_none_iff {α : Type} {m : List (Str × α)} {k : Str} :
    hmGet m k = none ↔ k ∉ m.map Prod.fst := by
  induction m with
  | nil => simp [hmGet]
  | cons p ps ih =>
    rw [hmGet_cons, List.map_cons]
    by_cases hp : p.1 = k
    · rw [if_pos hp]
      constructor
      · intro h
        exact absurd h (by simp)
      · intro h
        exact absurd (show k ∈ p.1 :: ps.map Prod.fst by
          rw [hp]
          exact List.mem_cons_self _ _) h
    · rw [if_neg hp, ih]
      constructor
      · intro h hk
        rcases List.mem_cons.mp hk with he | he
        · exact hp he.symm
        · exact h he
      · intro h hk
        exact h (List.mem_cons_of_mem _ hk)

theorem hmGet_eq_some_of_mem_nodup {α : Type} {m : List (Str × α)}
    (hnd : (m.map Prod.fst).Nodup) {k : Str} {v : α} (h : (k, v) ∈ m) :
    hmGet m k = some v := by
  induction m with
  | nil => exact absurd h (List.not_mem_nil _)
  | cons p ps ih =>
    rcases List.mem_cons.mp h with rfl | h2
    · rw [hmGet_cons, if_pos rfl]
    · rw [List.map_cons, List.nodup_cons] at hnd
      have hk : k ∈ ps.map Prod.fst := List.mem_map.mpr ⟨(k, v), h2, rfl⟩
      have hp : p.1 ≠ k := fun he => hnd.1 (by rw [he]; exact hk)
      rw [hmGet_cons, if_neg hp]
      exact ih hnd.2 h2

theorem hmGet_perm_eq {α : Type} {m m' : List (Str × α)} (hp : List.Perm m m')
    (hnd : (m.map Prod.fst).Nodup) (k : Str) : hmGet m k = hmGet m' k := by
  have hnd' : (m'.map Prod.fst).Nodup := ((hp.map Prod.fst).nodup_iff).mp hnd
  cases hv : hmGet m' k with
  | some v =>
    exact hmGet_eq_some_of_mem_nodup hnd (hp.mem_iff.mpr (hmGet_mem hv))
  | none =>
    rw [hmGet_eq_none_iff] at hv ⊢
    intro hk
    exact hv ((hp.map Prod.fst).mem_iff.mp hk)

theorem hmGet_foldl_insert {α : Type} (pairs : List (Str × α)) :
    ∀ m0 : List (Str × α), (pairs.map Prod.fst).Nodup → ∀ k,
      hmGet (pairs.foldl (fun m p => hmInsert m p.1 p.2) m0) k =
        (hmGet pairs k).or (hmGet m0 k) := by
  induction pairs with
  | nil =>
    intro m0 _ k
    rfl
  | cons p ps ih =>
    intro m0 hnd k
    rw [show (p :: ps).foldl (fun m p => hmInsert m p.1 p.2) m0 =
      ps.foldl (fun m p => hmInsert m p.1 p.2) (hmInsert m0 p.1 p.2) from rfl]
    rw [ih (hmInsert m0 p.1 p.2)
      (by rw [List.map_cons] at hnd; exact (List.nodup_cons.mp hnd).2) k]
    by_cases hk : p.1 = k
    · have hnone : hmGet ps k = none := by
        rw [hmGet_eq_none_iff, ← hk]
        rw [List.map_cons] at hnd
        exact (List.nodup_cons.mp hnd).1
      rw [hnone, hmGet_cons, if_pos hk, ← hk, hmGet_hmInsert_self]
      rfl
    · have hne : k ≠ p.1 := fun he => hk he.symm
      rw [hmGet_hmInsert_ne _ _ hne, hmGet_cons, if_neg hk]

theorem sortPairs_perm (m : List (Str × List Str)) :
    List.Perm (MimeAppsConfig.sortPairs m) m :=
  List.perm_insertionSort _ m

theorem sortPairs_keys_nodup {m : List (Str × List Str)}
    (h : (m.map Prod.fst).Nodup) :
    ((MimeAppsConfig.sortPairs m).map Prod.fst).Nodup :=
  (((sortPairs_perm m).map Prod.fst).nodup_iff).mpr h

theorem parse_line_blank (st : Str × ParsedMimeApps) :
    MimeAppsConfig.parse_line st [] = st := rfl

theorem parse_line_header_default (s : Str) (p : ParsedMimeApps) :
    MimeAppsConfig.parse_line (s, p) "[Default Applications]".toList =
      (MimeAppsConfig.sectionDefault, p) := rfl

theorem parse_line_header_added (s : Str) (p : ParsedMimeApps) :
    MimeAppsConfig.parse_line (s, p) "[Added Associations]".toList =
      (MimeAppsConfig.sectionAdded, p) := rfl

theorem parse_line_header_removed (s : Str) (p : ParsedMimeApps) :
    MimeAppsConfig.parse_line (s, p) "[Removed Associations]".toList =
      (MimeAppsConfig.sectionRemoved, p) := rfl

theorem parse_line_keyval (sec : Str) (p : ParsedMimeApps) (line key value : Str)
    (h1 : trim line = line)
    (h2 : ∃ ch, line.head? = some ch ∧ ch ≠ '#' ∧ ch ≠ '[')
    (h4 : splitOnceChar '=' line = some (key, value)) :
    MimeAppsConfig.parse_line (sec, p) line =
      (if (splitSemicolonList value).isEmpty then (sec, p)
       else if sec = MimeAppsConfig.sectionDefault then
         (sec, { p with
                  default_apps := hmInsert p.default_apps (trim key) (splitSemicolonList value) })
       else if sec = MimeAppsConfig.sectionAdded then
         (sec, { p with
                  added_associations :=
                    hmInsert p.added_associations (trim key) (splitSemicolonList value) })
       else if sec = MimeAppsConfig.sectionRemoved then
         (sec, { p with
                  removed_associations :=
                    hmInsert p.removed_associations (trim key) (splitSemicolonList value) })
       else (sec, p)) := by
  obtain ⟨ch, hch, hch1, hch2⟩ := h2
  have hne : line ≠ [] := by
    intro he
    rw [he] at hch
    simp at hch
  simp only [MimeAppsConfig.parse_line, h1]
  rw [if_neg, if_neg, h4]
  · intro hhl
    rw [hch] at hhl
    exact hch2 (Option.some_injective _ hhl.1)
  · rintro (he | hh)
    · exact hne (List.isEmpty_iff.mp he)
    · rw [hch] at hh
      exact hch1 (Option.some_injective _ hh)

theorem parse_line_entry_default (p : ParsedMimeApps) (k : Str) (v : List Str)
    (hk : (MimeAppsConfig.validate_mime_type k).isOk = true)
    (hv : v ≠ []) (hvg : ∀ id ∈ v, goodId id) :
    MimeAppsConfig.parse_line (MimeAppsConfig.sectionDefault, p)
        (MimeAppsConfig.lineNoSemi (k, v)) =
      (MimeAppsConfig.sectionDefault,
        { p with default_apps := hmInsert p.default_apps k v }) := by
  obtain ⟨hkne, hkch⟩ := valid_mime_chars hk
  have hkprops := fun ch hch => mimeChar_props (hkch ch hch)
  obtain ⟨kc, krest, hke⟩ := List.exists_cons_of_ne_nil hkne
  have hkc : kc ∈ k := by
    rw [hke]
    exact List.mem_cons_self _ _
  have idsne : ∀ x ∈ v, x ≠ [] := fun x hx => goodId_ne_nil (hvg x hx)
  have hhead : (MimeAppsConfig.lineNoSemi (k, v)).head? = some kc := by
    rw [MimeAppsConfig.lineNoSemi, hke]
    rfl
  obtain ⟨x, hx, lch, hlch, hjch⟩ := joinSep_getLast?_some (c := ';') hv idsne
  have hlast : (MimeAppsConfig.lineNoSemi (k, v)).getLast? = some lch := by
    rw [MimeAppsConfig.lineNoSemi,
      show ('=' :: joinSep ';' v) = ['='] ++ joinSep ';' v from rfl,
      ← List.append_assoc, List.getLast?_append, hjch]
    rfl
  have htrim : trim (MimeAppsConfig.lineNoSemi (k, v)) = MimeAppsConfig.lineNoSemi (k, v) := by
    apply trim_eq_self
    · intro c2 hc2
      rw [hhead] at hc2
      rw [show c2 = kc from Option.some_injective _ hc2.symm]
      exact (hkprops kc hkc).1
    · intro c2 hc2
      rw [hlast] at hc2
      rw [show c2 = lch from Option.some_injective _ hc2.symm]
      exact goodId_last_ws (hvg x hx) lch hlch
  have hsplit : splitOnceChar '=' (MimeAppsConfig.lineNoSemi (k, v)) =
      some (k, joinSep ';' v) := by
    rw [MimeAppsConfig.lineNoSemi]
    exact splitOnceChar_append (fun hm => (hkprops '=' hm).2.2.1 rfl) _
  have htrimk : trim k = k := by
    apply trim_eq_self
    · intro c2 hc2
      exact (hkprops c2 (List.mem_of_mem_head? hc2)).1
    · intro c2 hc2
      exact (hkprops c2 (List.mem_of_getLast?_eq_some hc2)).1
  have happs : splitSemicolonList (joinSep ';' v) = v := by
    rw [splitSemicolonList,
      splitOnChar_joinSep hv (fun x hx => (hvg x hx).2.1)]
    rw [List.filter_eq_self.mpr (fun x hx => by
      simp [List.isEmpty_iff]
      exact idsne x hx)]
    calc v.map trim = v.map id := List.map_congr_left (fun x hx =>
          trim_eq_self (goodId_head_ws (hvg x hx)) (goodId_last_ws (hvg x hx)))
      _ = v := List.map_id v
  rw [parse_line_keyval _ _ _ k (joinSep ';' v) htrim
    ⟨kc, hhead, (hkprops kc hkc).2.2.2.2.1, (hkprops kc hkc).2.2.2.2.2⟩ hsplit,
    happs, htrimk]
  rw [if_neg (by
    intro he
    exact hv (List.isEmpty_iff.mp he)), if_pos rfl]

theorem parse_line_entry_assoc (p : ParsedMimeApps) (sec : Str) (k : Str) (v : List Str)
    (hsec : sec = MimeAppsConfig.sectionAdded ∨ sec = MimeAppsConfig.sectionRemoved)
    (hk : (MimeAppsConfig.validate_mime_type k).isOk = true)
    (hv : v ≠ []) (hvg : ∀ id ∈ v, goodId id) :
    MimeAppsConfig.parse_line (sec, p) (MimeAppsConfig.lineSemi (k, v)) =
      (sec,
        if sec = MimeAppsConfig.sectionAdded then
          { p with added_associations := hmInsert p.added_associations k v }
        else
          { p with removed_associations := hmInsert p.removed_associations k v }) := by
  obtain ⟨hkne, hkch⟩ := valid_mime_chars hk
  have hkprops := fun ch hch => mimeChar_props (hkch ch hch)
  obtain ⟨kc, krest, hke⟩ := List.exists_cons_of_ne_nil hkne
  have hkc : kc ∈ k := by
    rw [hke]
    exact List.mem_cons_self _ _
  have idsne : ∀ x ∈ v, x ≠ [] := fun x hx => goodId_ne_nil (hvg x hx)
  have hhead : (MimeAppsConfig.lineSemi (k, v)).head? = some kc := by
    rw [MimeAppsConfig.lineSemi, hke]
    rfl
  have hshape : MimeAppsConfig.lineSemi (k, v) =
      (k ++ '=' :: joinSep ';' v) ++ [';'] := by
    rw [MimeAppsConfig.lineSemi, List.append_assoc]
    rfl
  have hlast : (MimeAppsConfig.lineSemi (k, v)).getLast? = some ';' := by
    rw [hshape]
    exact List.getLast?_concat _
  have htrim : trim (MimeAppsConfig.lineSemi (k, v)) = MimeAppsConfig.lineSemi (k, v) := by
    apply trim_eq_self
    · intro c2 hc2
      rw [hhead] at hc2
      rw [show c2 = kc from Option.some_injective _ hc2.symm]
      exact (hkprops kc hkc).1
    · intro c2 hc2
      rw [hlast] at hc2
      rw [show c2 = ';' from Option.some_injective _ hc2.symm]
      decide
  have hsplit : splitOnceChar '=' (MimeAppsConfig.lineSemi (k, v)) =
      some (k, joinSep ';' v ++ [';']) := by
    rw [MimeAppsConfig.lineSemi]
    exact splitOnceChar_append (fun hm => (hkprops '=' hm).2.2.1 rfl) _
  have htrimk : trim k = k := by
    apply trim_eq_self
    · intro c2 hc2
      exact (hkprops c2 (List.mem_of_mem_head? hc2)).1
    · intro c2 hc2
      exact (hkprops c2 (List.mem_of_getLast?_eq_some hc2)).1
  have happs : splitSemicolonList (joinSep ';' v ++ [';']) = v := by
    rw [splitSemicolonList,
      splitOnChar_joinSep_concat hv (fun x hx => (hvg x hx).2.1)]
    rw [List.filter_append]
    rw [List.filter_eq_self.mpr (fun x hx => by
      simp [List.isEmpty_iff]
      exact idsne x hx)]
    rw [show List.filter (fun s => !s.isEmpty) [([] : Str)] = [] from rfl, List.append_nil]
    calc v.map trim = v.map id := List.map_congr_left (fun x hx =>
          trim_eq_self (goodId_head_ws (hvg x hx)) (goodId_last_ws (hvg x hx)))
      _ = v := List.map_id v
  rw [parse_line_keyval _ _ _ k (joinSep ';' v ++ [';']) htrim
    ⟨kc, hhead, (hkprops kc hkc).2.2.2.2.1, (hkprops kc hkc).2.2.2.2.2⟩ hsplit,
    happs, htrimk]
  rw [if_neg (by
    intro he
    exact hv (List.isEmpty_iff.mp he))]
  rcases hsec with rfl | rfl
  · rw [if_neg (by decide), if_pos rfl, if_pos rfl]
  · rw [if_neg (by decide), if_neg (by decide), if_pos rfl, if_neg (by decide)]

theorem parse_fold_entries_default (pairs : List (Str × List Str)) :
    (∀ q ∈ pairs, goodPair q) → ∀ p : ParsedMimeApps,
      (pairs.map MimeAppsConfig.lineNoSemi).foldl MimeAppsConfig.parse_line
        (MimeAppsConfig.sectionDefault, p) =
      (MimeAppsConfig.sectionDefault,
        { p with default_apps :=
            pairs.foldl (fun m q => hmInsert m q.1 q.2) p.default_apps }) := by
  induction pairs with
  | nil =>
    intro _ p
    rfl
  | cons q qs ih =>
    intro hall p
    obtain ⟨hk, hv, hvg⟩ := hall q (List.mem_cons_self q qs)
    rw [List.map_cons, List.foldl_cons,
      parse_line_entry_default p q.1 q.2 hk hv hvg,
      ih (fun r hr => hall r (List.mem_cons_of_mem q hr))
        { p with default_apps := hmInsert p.default_apps q.1 q.2 }]
    rfl

theorem parse_fold_entries_added (pairs : List (Str × List Str)) :
    (∀ q ∈ pairs, goodPair q) → ∀ p : ParsedMimeApps,
      (pairs.map MimeAppsConfig.lineSemi).foldl MimeAppsConfig.parse_line
        (MimeAppsConfig.sectionAdded, p) =
      (MimeAppsConfig.sectionAdded,
        { p with added_associations :=
            pairs.foldl (fun m q => hmInsert m q.1 q.2) p.added_associations }) := by
  induction pairs with
  | nil =>
    intro _ p
    rfl
  | cons q qs ih =>
    intro hall p
    obtain ⟨hk, hv, hvg⟩ := hall q (List.mem_cons_self q qs)
    rw [List.map_cons, List.foldl_cons,
      parse_line_entry_assoc p _ q.1 q.2 (Or.inl rfl) hk hv hvg, if_pos rfl,
      ih (fun r hr => hall r (List.mem_cons_of_mem q hr))
        { p with added_associations := hmInsert p.added_associations q.1 q.2 }]
    rfl

theorem parse_fold_entries_removed (pairs : List (Str × List Str)) :
    (∀ q ∈ pairs, goodPair q) → ∀ p : ParsedMimeApps,
      (pairs.map MimeAppsConfig.lineSemi).foldl MimeAppsConfig.parse_line
        (MimeAppsConfig.sectionRemoved, p) =
      (MimeAppsConfig.sectionRemoved,
        { p with removed_associations :=
            pairs.foldl (fun m q => hmInsert m q.1 q.2) p.removed_associations }) := by
  induction pairs with
  | nil =>
    intro _ p
    rfl
  | cons q qs ih =>
    intro hall p
    obtain ⟨hk, hv, hvg⟩ := hall q (List.mem_cons_self q qs)
    rw [List.map_cons, List.foldl_cons,
      parse_line_entry_assoc p _ q.1 q.2 (Or.inr rfl) hk hv hvg, if_neg (by decide),
      ih (fun r hr => hall r (List.mem_cons_of_mem q hr))
        { p with removed_associations := hmInsert p.removed_associations q.1 q.2 }]
    rfl

theorem parse_block_default (pairs : List (Str × List Str))
    (hgood : ∀ q ∈ pairs, goodPair q) (st : Str × ParsedMimeApps) :
    (("[Default Applications]".toList :: pairs.map MimeAppsConfig.lineNoSemi ++ [[]]).foldl
      MimeAppsConfig.parse_line st) =
    (MimeAppsConfig.sectionDefault,
      { st.2 with default_apps :=
          pairs.foldl (fun m q => hmInsert m q.1 q.2) st.2.default_apps }) := by
  obtain ⟨s, p⟩ := st
  rw [List.foldl_append, List.foldl_cons, List.foldl_nil, parse_line_blank,
    List.foldl_cons, parse_line_header_default, parse_fold_entries_default pairs hgood p]

theorem parse_block_added (pairs : List (Str × List Str))
    (hgood : ∀ q ∈ pairs, goodPair q) (st : Str × ParsedMimeApps) :
    (("[Added Associations]".toList :: pairs.map MimeAppsConfig.lineSemi ++ [[]]).foldl
      MimeAppsConfig.parse_line st) =
    (MimeAppsConfig.sectionAdded,
      { st.2 with added_associations :=
          pairs.foldl (fun m q => hmInsert m q.1 q.2) st.2.added_associations }) := by
  obtain ⟨s, p⟩ := st
  rw [List.foldl_append, List.foldl_cons, List.foldl_nil, parse_line_blank,
    List.foldl_cons, parse_line_header_added, parse_fold_entries_added pairs hgood p]

theorem parse_block_removed (pairs : List (Str × List Str))
    (hgood : ∀ q ∈ pairs, goodPair q) (st : Str × ParsedMimeApps) :
    (("[Removed Associations]".toList :: pairs.map MimeAppsConfig.lineSemi).foldl
      MimeAppsConfig.parse_line st) =
    (MimeAppsConfig.sectionRemoved,
      { st.2 with removed_associations :=
          pairs.foldl (fun m q => hmInsert m q.1 q.2) st.2.removed_associations }) := by
  obtain ⟨s, p⟩ := st
  rw [List.foldl_cons, parse_line_header_removed,
    parse_fold_entries_removed pairs hgood p]

theorem lineNoSemi_good {q : Str × List Str} (h : goodPair q) :
    '\n' ∉ MimeAppsConfig.lineNoSemi q ∧
      (MimeAppsConfig.lineNoSemi q).getLast? ≠ some '\r' := by
  obtain ⟨hk, hv, hvg⟩ := h
  obtain ⟨hkne, hkch⟩ := valid_mime_chars hk
  constructor
  · intro hmem
    rw [MimeAppsConfig.lineNoSemi] at hmem
    rcases List.mem_append.mp hmem with h2 | h2
    · exact (mimeChar_props (hkch _ h2)).2.1 rfl
    · rcases List.mem_cons.mp h2 with h3 | h3
      · exact absurd h3 (by decide)
      · rcases mem_joinSep h3 with h4 | ⟨x, hx, hcx⟩
        · exact absurd h4 (by decide)
        · exact (hvg x hx).2.2.1 hcx
  · obtain ⟨x, hx, ch, hch, hjch⟩ := joinSep_getLast?_some (c := ';') hv
      (fun x hx => goodId_ne_nil (hvg x hx))
    have hlast : (MimeAppsConfig.lineNoSemi q).getLast? = some ch := by
      rw [MimeAppsConfig.lineNoSemi,
        show ('=' :: joinSep ';' q.2) = ['='] ++ joinSep ';' q.2 from rfl,
        ← List.append_assoc, List.getLast?_append, hjch]
      rfl
    rw [hlast]
    intro heq
    have hws := goodId_last_ws (hvg x hx) ch hch
    rw [Option.some_injective _ heq] at hws
    exact absurd hws (by decide)

theorem lineSemi_good {q : Str × List Str} (h : goodPair q) :
    '\n' ∉ MimeAppsConfig.lineSemi q ∧
      (MimeAppsConfig.lineSemi q).getLast? ≠ some '\r' := by
  obtain ⟨hk, hv, hvg⟩ := h
  obtain ⟨hkne, hkch⟩ := valid_mime_chars hk
  constructor
  · intro hmem
    rw [MimeAppsConfig.lineSemi] at hmem
    rcases List.mem_append.mp hmem with h2 | h2
    · exact (mimeChar_props (hkch _ h2)).2.1 rfl
    · rcases List.mem_cons.mp h2 with h3 | h3
      · exact absurd h3 (by decide)
      · rcases List.mem_append.mp h3 with h4 | h4
        · rcases mem_joinSep h4 with h5 | ⟨x, hx, hcx⟩
          · exact absurd h5 (by decide)
          · exact (hvg x hx).2.2.1 hcx
        · rw [List.mem_singleton.mp h4] at h3
          exact absurd (List.mem_singleton.mp h4) (by decide)
  · have hshape : MimeAppsConfig.lineSemi q =
        (q.1 ++ '=' :: joinSep ';' q.2) ++ [';'] := by
      rw [MimeAppsConfig.lineSemi, List.append_assoc]
      rfl
    rw [hshape, List.getLast?_concat]
    decide

theorem saveLines_good (c : MimeAppsConfig)
    (hd : goodMap c.default_apps) (ha : goodMap c.added_associations)
    (hr : goodMap c.removed_associations) :
    ∀ l ∈ MimeAppsConfig.saveLines c, '\n' ∉ l ∧ l.getLast? ≠ some '\r' := by
  have hgoodD : ∀ q ∈ MimeAppsConfig.sortPairs c.default_apps, goodPair q :=
    fun q hq => hd.2 q ((sortPairs_perm _).subset hq)
  have hgoodA : ∀ q ∈ MimeAppsConfig.sortPairs c.added_associations, goodPair q :=
    fun q hq => ha.2 q ((sortPairs_perm _).subset hq)
  have hgoodR : ∀ q ∈ MimeAppsConfig.sortPairs c.removed_associations, goodPair q :=
    fun q hq => hr.2 q ((sortPairs_perm _).subset hq)
  intro l hl
  rw [MimeAppsConfig.saveLines] at hl
  rcases List.mem_append.mp hl with h1 | h1
  · rcases List.mem_append.mp h1 with h2 | h2
    · by_cases hD : c.default_apps.isEmpty
      · rw [if_pos hD] at h2
        exact absurd h2 (List.not_mem_nil l)
      · rw [if_neg hD] at h2
        rcases List.mem_append.mp h2 with h3 | h3
        · rcases List.mem_cons.mp h3 with rfl | h4
          · exact ⟨by decide, by decide⟩
          · obtain ⟨q, hq, rfl⟩ := List.mem_map.mp h4
            exact lineNoSemi_good (hgoodD q hq)
        · rw [List.mem_singleton.mp h3]
          exact ⟨by simp, by simp⟩
    · by_cases hA : c.added_associations.isEmpty
      · rw [if_pos hA] at h2
        exact absurd h2 (List.not_mem_nil l)
      · rw [if_neg hA] at h2
        rcases List.mem_append.mp h2 with h3 | h3
        · rcases List.mem_cons.mp h3 with rfl | h4
          · exact ⟨by decide, by decide⟩
          · obtain ⟨q, hq, rfl⟩ := List.mem_map.mp h4
            exact lineSemi_good (hgoodA q hq)
        · rw [List.mem_singleton.mp h3]
          exact ⟨by simp, by simp⟩
  · by_cases hR : c.removed_associations.isEmpty
    · rw [if_pos hR] at h1
      exact absurd h1 (List.not_mem_nil l)
    · rw [if_neg hR] at h1
      rcases List.mem_cons.mp h1 with rfl | h4
      · exact ⟨by decide, by decide⟩
      · obtain ⟨q, hq, rfl⟩ := List.mem_map.mp h4
        exact lineSemi_good (hgoodR q hq)

/-- C2 counterexample: the store `text/plain ↦ [a;b.desktop]` passes both
validations required by the claim, yet saving and re-parsing splits the
id at the `;` list separator, so the mappings are not reproduced. -/
theorem save_parse_roundtrip_counterexample :
    (MimeAppsConfig.validate_mime_type "text/plain".toList).isOk = true ∧
    (MimeAppsConfig.validate_app_id "a;b.desktop".toList).isOk = true ∧
    hmGet (MimeAppsConfig.parse_file
        (MimeAppsConfig.save configSemicolonId)).default_apps "text/plain".toList =
      some [ "a".toList, "b.desktop".toList ] ∧
    hmGet configSemicolonId.default_apps "text/plain".toList =
      some [ "a;b.desktop".toList ] ∧
    ([ "a".toList, "b.desktop".toList ] : List Str) ≠ [ "a;b.desktop".toList ] := by
  exact ⟨by decide, by decide, by decide, by decide, by decide⟩

/-- C2 amended: the save/parse round trip reproduces all three mappings
provided that, beyond the claim's validation requirements, every app list
is non-empty and every id stays clear of the characters the line format
reserves: no `;`, no newline, and no leading or trailing whitespace. -/
theorem save_parse_roundtrip (c : MimeAppsConfig)
    (hd : goodMap c.default_apps) (ha : goodMap c.added_associations)
    (hr : goodMap c.removed_associations) :
    (∀ k, hmGet (MimeAppsConfig.parse_file (MimeAppsConfig.save c)).default_apps k =
      hmGet c.default_apps k) ∧
    (∀ k, hmGet (MimeAppsConfig.parse_file (MimeAppsConfig.save c)).added_associations k =
      hmGet c.added_associations k) ∧
    (∀ k, hmGet (MimeAppsConfig.parse_file (MimeAppsConfig.save c)).removed_associations k =
      hmGet c.removed_associations k) := by
  have hgoodD : ∀ q ∈ MimeAppsConfig.sortPairs c.default_apps, goodPair q :=
    fun q hq => hd.2 q ((sortPairs_perm _).subset hq)
  have hgoodA : ∀ q ∈ MimeAppsConfig.sortPairs c.added_associations, goodPair q :=
    fun q hq => ha.2 q ((sortPairs_perm _).subset hq)
  have hgoodR : ∀ q ∈ MimeAppsConfig.sortPairs c.removed_associations, goodPair q :=
    fun q hq => hr.2 q ((sortPairs_perm _).subset hq)
  have hbuf : bufLines (MimeAppsConfig.save c) = MimeAppsConfig.saveLines c := by
    rw [MimeAppsConfig.save]
    exact bufLines_joinLines (saveLines_good c hd ha hr)
  have stepD : ∀ st : Str × ParsedMimeApps,
      (if c.default_apps.isEmpty then [] else
        "[Default Applications]".toList ::
          (MimeAppsConfig.sortPairs c.default_apps).map MimeAppsConfig.lineNoSemi ++
          [[]]).foldl MimeAppsConfig.parse_line st =
      (if c.default_apps.isEmpty then st else
        (MimeAppsConfig.sectionDefault,
          { st.2 with default_apps := (MimeAppsConfig.sortPairs c.default_apps).foldl (fun m q => hmInsert m q.1 q.2) st.2.default_apps })) := by
    intro st
    by_cases hD : c.default_apps.isEmpty
    · rw [if_pos hD, if_pos hD]
      rfl
    · rw [if_neg hD, if_neg hD]
      exact parse_block_default _ hgoodD st
  have stepA : ∀ st : Str × ParsedMimeApps,
      (if c.added_associations.isEmpty then [] else
        "[Added Associations]".toList ::
          (MimeAppsConfig.sortPairs c.added_associations).map MimeAppsConfig.lineSemi ++
          [[]]).foldl MimeAppsConfig.parse_line st =
      (if c.added_associations.isEmpty then st else
        (MimeAppsConfig.sectionAdded,
          { st.2 with added_associations := (MimeAppsConfig.sortPairs c.added_associations).foldl (fun m q => hmInsert m q.1 q.2) st.2.added_associations })) := by
    intro st
    by_cases hA : c.added_associations.isEmpty
    · rw [if_pos hA, if_pos hA]
      rfl
    · rw [if_neg hA, if_neg hA]
      exact parse_block_added _ hgoodA st
  have stepR : ∀ st : Str × ParsedMimeApps,
      (if c.removed_associations.isEmpty then [] else
        "[Removed Associations]".toList ::
          (MimeAppsConfig.sortPairs c.removed_associations).map MimeAppsConfig.lineSemi).foldl
        MimeAppsConfig.parse_line st =
      (if c.removed_associations.isEmpty then st else
        (MimeAppsConfig.sectionRemoved,
          { st.2 with removed_associations := (MimeAppsConfig.sortPairs c.removed_associations).foldl (fun m q => hmInsert m q.1 q.2) st.2.removed_associations })) := by
    intro st
    by_cases hR : c.removed_associations.isEmpty
    · rw [if_pos hR, if_pos hR]
      rfl
    · rw [if_neg hR, if_neg hR]
      exact parse_block_removed _ hgoodR st
  have hkeyD : ∀ k, hmGet ((MimeAppsConfig.sortPairs c.default_apps).foldl
      (fun m q => hmInsert m q.1 q.2) []) k = hmGet c.default_apps k := by
    intro k
    rw [hmGet_foldl_insert _ [] (sortPairs_keys_nodup hd.1) k]
    rw [hmGet_perm_eq (sortPairs_perm c.default_apps) (sortPairs_keys_nodup hd.1) k]
    cases hmGet c.default_apps k <;> rfl
  have hkeyA : ∀ k, hmGet ((MimeAppsConfig.sortPairs c.added_associations).foldl
      (fun m q => hmInsert m q.1 q.2) []) k = hmGet c.added_associations k := by
    intro k
    rw [hmGet_foldl_insert _ [] (sortPairs_keys_nodup ha.1) k]
    rw [hmGet_perm_eq (sortPairs_perm c.added_associations) (sortPairs_keys_nodup ha.1) k]
    cases hmGet c.added_associations k <;> rfl
  have hkeyR : ∀ k, hmGet ((MimeAppsConfig.sortPairs c.removed_associations).foldl
      (fun m q => hmInsert m q.1 q.2) []) k = hmGet c.removed_associations k := by
    intro k
    rw [hmGet_foldl_insert _ [] (sortPairs_keys_nodup hr.1) k]
    rw [hmGet_perm_eq (sortPairs_perm c.removed_associations) (sortPairs_keys_nodup hr.1) k]
    cases hmGet c.removed_associations k <;> rfl
  refine ⟨fun k => ?_, fun k => ?_, fun k => ?_⟩
  · rw [MimeAppsConfig.parse_file, hbuf, MimeAppsConfig.saveLines,
      List.foldl_append, List.foldl_append, stepD, stepA, stepR]
    by_cases hD : c.default_apps.isEmpty <;>
      by_cases hA : c.added_associations.isEmpty <;>
        by_cases hR : c.removed_associations.isEmpty
    all_goals simp only [hD, hA, hR, if_true, if_false, eq_self_iff_true]
    all_goals first
      | rfl
      | exact hkeyD k
      | (rw [List.isEmpty_iff.mp hD]; try rfl)
  · rw [MimeAppsConfig.parse_file, hbuf, MimeAppsConfig.saveLines,
      List.foldl_append, List.foldl_append, stepD, stepA, stepR]
    by_cases hD : c.default_apps.isEmpty <;>
      by_cases hA : c.added_associations.isEmpty <;>
        by_cases hR : c.removed_associations.isEmpty
    all_goals simp only [hD, hA, hR, if_true, if_false, eq_self_iff_true]
    all_goals first
      | rfl
      | exact hkeyA k
      | (rw [List.isEmpty_iff.mp hA]; try rfl)
  · rw [MimeAppsConfig.parse_file, hbuf, MimeAppsConfig.saveLines,
      List.foldl_append, List.foldl_append, stepD, stepA, stepR]
    by_cases hD : c.default_apps.isEmpty <;>
      by_cases hA : c.added_associations.isEmpty <;>
        by_cases hR : c.removed_associations.isEmpty
    all_goals simp only [hD, hA, hR, if_true, if_false, eq_self_iff_true]
    all_goals first
      | rfl
      | exact hkeyR k
      | (rw [List.isEmpty_iff.mp hR]; try rfl)

/-- Witness for C2 amended at a three-section store. -/
theorem save_parse_roundtrip_witness :
    goodMap configRoundtrip.default_apps ∧
    goodMap configRoundtrip.added_associations ∧
    goodMap configRoundtrip.removed_associations ∧
    hmGet (MimeAppsConfig.parse_file
        (MimeAppsConfig.save configRoundtrip)).added_associations "text/plain".toList =
      hmGet configRoundtrip.added_associations "text/plain".toList :=
  ⟨by decide, by decide, by decide,
    (save_parse_roundtrip configRoundtrip (by decide) (by decide) (by decide)).2.1
      "text/plain".toList⟩

end XdgChooser
